import Mathlib

/-!
Shallow embedding of the core of npm-offline-packager:
  - src/lib/fetch-packages.js  (version normalization, dependency resolution,
    manifest fetching, tarball file naming)
  - src/lib/npm-publish.js     (tarball filename parsing and publish command)
  - src/lib/cache.js           (in-memory resolved-packages memo)

JavaScript strings are modelled as Lean `String` / `List Char`; JS objects used
as string-keyed maps are association lists with pairwise-distinct keys; the
mutable in-memory memo is a `Finset String` of "name@version" keys threaded
through an explicit state.  Network fetching (pacote) is a parameter:
a function from the request to an `Option`/`Except` result.
-/

namespace NpmOfflinePackager

/-! ### JavaScript string primitives (on `List Char`) -/

/-- JS `s.replace(c, '')` with a single-character pattern: remove the first
occurrence of `c`. -/
def removeFirstChar (c : Char) : List Char → List Char
  | [] => []
  | x :: t => if x = c then t else x :: removeFirstChar c t

/-- JS `s.replace(c, d)` with single-character pattern and replacement:
replace the first occurrence of `c` by `d`. -/
def replaceFirstChar (c d : Char) : List Char → List Char
  | [] => []
  | x :: t => if x = c then d :: t else x :: replaceFirstChar c d t

/-- Does `pat` occur as a prefix of `s`? -/
def listIsPrefix : List Char → List Char → Bool
  | [], _ => true
  | _ :: _, [] => false
  | p :: ps, x :: xs => p = x && listIsPrefix ps xs

/-- JS `s.includes(pat)`: does `pat` occur as a contiguous substring of `s`? -/
def listContains (pat : List Char) : List Char → Bool
  | [] => listIsPrefix pat []
  | x :: t => listIsPrefix pat (x :: t) || listContains pat t

/-- JS `s.replace(pat, rep)` with a string pattern: replace the first
occurrence of `pat` by `rep` (identity when there is no occurrence). -/
def listReplaceFirst (pat rep : List Char) : List Char → List Char
  | [] => []
  | x :: t =>
    if listIsPrefix pat (x :: t) then rep ++ (x :: t).drop pat.length
    else x :: listReplaceFirst pat rep t

/-- JS `s.endsWith(pat)`. -/
def listEndsWith (pat s : List Char) : Bool :=
  listIsPrefix pat.reverse s.reverse

/-- Split a list at every occurrence of the character `c` (JS `s.split(c)`). -/
def splitOnChar (c : Char) : List Char → List (List Char)
  | [] => [[]]
  | x :: t =>
    match splitOnChar c t with
    | [] => [[x]]
    | h :: r => if x = c then [] :: h :: r else (x :: h) :: r

/-- Split at the first occurrence of `c`: `some (before, after)`, or `none`
when `c` does not occur. -/
def splitFirstChar (c : Char) : List Char → Option (List Char × List Char)
  | [] => none
  | x :: t =>
    if x = c then some ([], t)
    else (splitFirstChar c t).map (fun p => (x :: p.1, p.2))

/-- The segment after the last occurrence of `c` (the whole list when `c` does
not occur).  `basename` for `c = '/'`. -/
def afterLastChar (c : Char) : List Char → List Char
  | [] => []
  | x :: t =>
    if (t.contains c) then afterLastChar c t
    else if x = c then t else x :: t

/-- The segment strictly before the last occurrence of `c`, or `none` when `c`
does not occur.  Models the capture group of the greedy regex `(.*)-` for
`c = '-'`. -/
def beforeLastChar (c : Char) : List Char → Option (List Char)
  | [] => none
  | x :: t =>
    match beforeLastChar c t with
    | some r => some (x :: r)
    | none => if x = c then some [] else none

/-! ### semver model (npm `semver` v5: `valid` and `coerce`) -/

/-- Largest integer a semver numeric component may take
(`Number.MAX_SAFE_INTEGER`). -/
def maxSafeInteger : Nat := 9007199254740991

/-- Numeric value of a digit string. -/
def digitsToNat (l : List Char) : Nat :=
  l.foldl (fun a c => a * 10 + (c.toNat - 48)) 0

/-- semver `NUMERICIDENTIFIER`: `0|[1-9]\d*`, bounded by
`Number.MAX_SAFE_INTEGER`. -/
def numericIdValid (l : List Char) : Bool :=
  !l.isEmpty && l.all Char.isDigit &&
    (decide (l.head? ≠ some '0') || decide (l.length = 1)) &&
    decide (digitsToNat l ≤ maxSafeInteger)

/-- Characters allowed in prerelease/build identifiers: `[0-9A-Za-z-]`. -/
def idChar (c : Char) : Bool :=
  c.isDigit || c.isAlpha || c = '-'

/-- semver `PRERELEASEIDENTIFIER`: numeric identifier (no leading zeros) or an
alphanumeric/hyphen identifier containing at least one non-digit. -/
def prereleaseIdValid (l : List Char) : Bool :=
  if l.all Char.isDigit then
    !l.isEmpty && (decide (l.head? ≠ some '0') || decide (l.length = 1))
  else
    !l.isEmpty && l.all idChar

/-- semver `BUILDIDENTIFIER`: `[0-9A-Za-z-]+`. -/
def buildIdValid (l : List Char) : Bool :=
  !l.isEmpty && l.all idChar

/-- `MAJOR.MINOR.PATCH`, all three numeric identifiers. -/
def mainVersionValid (l : List Char) : Bool :=
  match splitOnChar '.' l with
  | [a, b, c] => numericIdValid a && numericIdValid b && numericIdValid c
  | _ => false

/-- Truthiness of `semver.valid(s)` (strict grammar `^v?MAIN(-PRE)?(+BUILD)?$`
with the 256-character length cap). -/
def semverValid (s : String) : Bool :=
  if s.length > 256 then false
  else
    let l := match s.data with
      | 'v' :: t => t
      | t => t
    let coreBuild := match splitFirstChar '+' l with
      | none => (l, none)
      | some (a, b) => (a, some b)
    let mainPre := match splitFirstChar '-' coreBuild.1 with
      | none => (coreBuild.1, none)
      | some (a, b) => (a, some b)
    mainVersionValid mainPre.1 &&
      (match mainPre.2 with
       | none => true
       | some p => (splitOnChar '.' p).all prereleaseIdValid) &&
      (match coreBuild.2 with
       | none => true
       | some b => (splitOnChar '.' b).all buildIdValid)

/-- Leading digit run. -/
def takeDigits (l : List Char) : List Char := l.takeWhile Char.isDigit

/-- Drop the leading digit run. -/
def dropDigits (l : List Char) : List Char := l.dropWhile Char.isDigit

/-- After the major component, parse the optional `.minor(.patch)?` groups of
the semver `COERCE` regex; missing or oversized (>16 digit) groups default
to `"0"`. -/
def coerceMinorPatch (l : List Char) : List Char × List Char :=
  match l with
  | '.' :: r =>
    let mrun := takeDigits r
    if mrun.isEmpty || decide (mrun.length > 16) then (['0'], ['0'])
    else
      match dropDigits r with
      | '.' :: r2 =>
        let prun := takeDigits r2
        if prun.isEmpty || decide (prun.length > 16) then (mrun, ['0'])
        else (mrun, prun)
      | _ => (mrun, ['0'])
  | _ => (['0'], ['0'])

/-- Left-to-right scan of the semver `COERCE` regex
`(^|[^\d])(\d{1,16})(\.(\d{1,16}))?(\.(\d{1,16}))?($|[^\d])`: the first digit
run of length at most 16 is the major component (longer runs are skipped
whole); the flag records whether the scanner stands inside a digit run whose
start was already examined. -/
def coerceScanGo : Bool → List Char → Option (List Char × List Char × List Char)
  | _, [] => none
  | inRun, c :: t =>
    if c.isDigit then
      if inRun then coerceScanGo true t
      else
        let run := takeDigits (c :: t)
        if decide (run.length ≤ 16) then
          let mp := coerceMinorPatch (dropDigits (c :: t))
          some (run, mp.1, mp.2)
        else coerceScanGo true t
    else coerceScanGo false t

/-- `semver.coerce(s)` (v5 semantics): extract `major(.minor(.patch)?)?` from
the first eligible digit run and re-parse the composed concrete version;
`none` when no run matches or the composition is rejected (e.g. leading
zeros, oversized numbers). -/
def semverCoerce (s : String) : Option String :=
  match coerceScanGo false s.data with
  | none => none
  | some (ma, mi, pa) =>
    let comp : String := ⟨ma ++ '.' :: mi ++ '.' :: pa⟩
    if semverValid comp then some comp else none

/-! ### Version normalization (fetch-packages.js, lines 95-109) -/

/-- `version.replace('^', '').replace('~', '')`. -/
def stripRange (v : String) : String :=
  ⟨removeFirstChar '~' (removeFirstChar '^' v.data)⟩

/-- The per-entry version normalization inside `getManifestDependencies`:
keep the raw specifier when its stripped form is a valid concrete version,
otherwise coerce, otherwise fall back to `"latest"`.  Note that in the valid
case the function returns the raw specifier `v` itself (the `^`/`~` prefix is
not removed): `version` is only reassigned in the invalid branch. -/
def normalizeSpec (v : String) : String :=
  let clean := stripRange v
  if semverValid clean then v
  else
    match semverCoerce clean with
    | some c => c
    | none => "latest"

/-! ### Data model -/

/-- A package manifest as consumed by the resolver: `package.json` metadata
plus the `isLatest` flag attached by `getPackageManifest`.  The four
dependency maps are string-keyed JS objects, modelled as association lists
(a well-formed JS object has pairwise-distinct keys). -/
structure JsManifest where
  name : String
  version : String
  isLatest : Bool
  dependencies : List (String × String)
  devDependencies : List (String × String)
  peerDependencies : List (String × String)
  optionalDependencies : List (String × String)
deriving DecidableEq, Repr

/-- The resolver options flags (`options.dev` / `options.peer` /
`options.optional`). -/
structure ResolveOptions where
  dev : Bool
  peer : Bool
  optional : Bool
deriving DecidableEq, Repr

/-- An entry of the resolved dependency list
(`{ name, version, isLatest }`). -/
structure RPkg where
  name : String
  version : String
  isLatest : Bool
deriving DecidableEq, Repr

/-! ### lodash `merge` on string-valued maps (fetch-packages.js, lines 88-93) -/

/-- JS object property assignment `o[k] = v`: overwrite in place when the key
exists, otherwise append (JS string keys keep insertion order). -/
def setKey (l : List (String × String)) (k v : String) : List (String × String) :=
  match l with
  | [] => [(k, v)]
  | (k0, v0) :: t => if k0 = k then (k, v) :: t else (k0, v0) :: setKey t k v

/-- `lodash.merge(dst, src)` for flat string-valued maps: assign every `src`
entry into `dst` in order. -/
def mergeAssoc (dst : List (String × String)) : List (String × String) → List (String × String)
  | [] => dst
  | (k, v) :: t => mergeAssoc (setKey dst k v) t

/-- The merged declared-dependency map built by `getManifestDependencies`:
`merge(manifest.dependencies, dev?, peer?, optional?)`.  lodash `merge`
mutates its first argument, so this is also the value
`manifest.dependencies` holds after the call. -/
def mergedDeps (m : JsManifest) (opts : ResolveOptions) : List (String × String) :=
  mergeAssoc (mergeAssoc (mergeAssoc m.dependencies
      (if opts.dev then m.devDependencies else []))
      (if opts.peer then m.peerDependencies else []))
      (if opts.optional then m.optionalDependencies else [])

/-- `getManifestDependencies(manifest, options)`: the merged dependency map
with every version specifier normalized. -/
def getManifestDependencies (m : JsManifest) (opts : ResolveOptions) :
    List (String × String) :=
  (mergedDeps m opts).map (fun d => (d.1, normalizeSpec d.2))

/-- `getManifestDependencies` together with its side effect on the input
manifest: lodash `merge` writes the merged map back into
`manifest.dependencies` (the first argument of `merge` is its destination). -/
def getManifestDependenciesMut (m : JsManifest) (opts : ResolveOptions) :
    List (String × String) × JsManifest :=
  (getManifestDependencies m opts, { m with dependencies := mergedDeps m opts })

/-! ### The resolver (fetch-packages.js, lines 120-160) -/

/-- Key of the in-memory resolved-packages cache
(cache.js: `${packageName}@${packageVersion}`). -/
def pkgKey (n v : String) : String := n ++ "@" ++ v

/-- The mutable context shared by every recursive `resolveDependencies` call:
the resolved-packages memo (`resolvedPackages` of cache.js) and the
`depth` / `progress` fields that live on the shared `options` object. -/
structure RState where
  memo : Finset String
  depth : Nat
  progress : ℚ
deriving DecidableEq

/-- Observable events of a resolve run: a manifest fetch issued for a
dependency edge, or a logger call (`Resolving dependencies: name@version`
together with the cumulative progress fraction passed to the logger). -/
inductive TraceEv where
  | fetch (name version : String)
  | log (message : String) (fraction : ℚ)
deriving DecidableEq, Repr

/-- One iteration of the `reduce` at fetch-packages.js lines 145-156: push
the current manifest, recurse into it with `depth + 1` (mutating the shared
options object), then the depth-0 progress accounting, then concatenate. -/
def resolveStep (rec : JsManifest → RState → Option (List RPkg × RState × List TraceEv))
    (denom : Nat) (acc : Option (List RPkg × RState × List TraceEv)) (m : JsManifest) :
    Option (List RPkg × RState × List TraceEv) :=
  match acc with
  | none => none
  | some (accRes, accSt, accTr) =>
    let stIn : RState := { accSt with depth := accSt.depth + 1 }
    match rec m stIn with
    | none => none
    | some (childRes, stc, trc) =>
      let stp : RState :=
        if stc.depth = 0 then { stc with progress := stc.progress + 1 / (denom : ℚ) }
        else stc
      some (accRes ++ ⟨m.name, m.version, m.isLatest⟩ :: childRes, stp, accTr ++ trc)

/-- The pre-fetch memo filter of line 135. -/
def levelDeps1 (st : RState) (deps : List (String × String)) : List (String × String) :=
  deps.filter (fun d => decide (pkgKey d.1 d.2 ∉ st.memo))

/-- The fetch stage of line 136: per-edge fetch with every failure caught
and the edge dropped. -/
def levelMans (reg : String → String → Option JsManifest)
    (deps1 : List (String × String)) : List JsManifest :=
  deps1.filterMap (fun d => reg d.1 d.2)

/-- The post-fetch memo filter of line 138 (on the manifest's actual
name/version). -/
def levelMans1 (st : RState) (mans : List JsManifest) : List JsManifest :=
  mans.filter (fun m => decide (pkgKey m.name m.version ∉ st.memo))

/-- The `.each` of lines 140-143: insert every surviving manifest's key into
the resolved-packages memo. -/
def memoAfterEach (st : RState) (mans1 : List JsManifest) : Finset String :=
  mans1.foldl (fun acc m => insert (pkgKey m.name m.version) acc) st.memo

/-- The surviving manifests of one level: pre-fetch filter, fetch,
post-fetch filter. -/
def levelSurvivors (reg : String → String → Option JsManifest) (st : RState)
    (deps : List (String × String)) : List JsManifest :=
  levelMans1 st (levelMans reg (levelDeps1 st deps))

/-- The state after the `.each` stage of one level. -/
def stateAfterEach (reg : String → String → Option JsManifest) (st : RState)
    (deps : List (String × String)) : RState :=
  { st with memo := memoAfterEach st (levelSurvivors reg st deps) }

/-- The fetch and logger events of one level, in order: first every fetch of
the concurrent map stage, then one logger call per surviving manifest
carrying the current progress fraction. -/
def levelTrace (reg : String → String → Option JsManifest) (st : RState)
    (deps : List (String × String)) : List TraceEv :=
  (levelDeps1 st deps).map (fun d => TraceEv.fetch d.1 d.2) ++
    (levelSurvivors reg st deps).map (fun m =>
      TraceEv.log ("Resolving dependencies: " ++ m.name ++ "@" ++ m.version) st.progress)

/-- The reduce of one level over the surviving manifests, prefixed by the
level's own trace. -/
def resolveLevel (reg : String → String → Option JsManifest)
    (rec : JsManifest → RState → Option (List RPkg × RState × List TraceEv))
    (manifest : JsManifest) (opts : ResolveOptions) (st : RState) :
    Option (List RPkg × RState × List TraceEv) :=
  ((levelSurvivors reg st (getManifestDependencies manifest opts)).foldl
      (resolveStep rec (getManifestDependencies manifest opts).length)
      (some ([], stateAfterEach reg st (getManifestDependencies manifest opts), []))).map
    (fun r => (r.1, r.2.1, levelTrace reg st (getManifestDependencies manifest opts) ++ r.2.2))

/-- One level of `resolveDependencies` (lines 124-159), with the recursive
call abstracted as `rec`: normalize, early return on no dependencies,
pre-fetch memo filter, fetch, post-fetch memo filter, memo insertion and
logging, then the sequential reduce. -/
def resolveBody (reg : String → String → Option JsManifest)
    (rec : JsManifest → RState → Option (List RPkg × RState × List TraceEv))
    (manifest : JsManifest) (opts : ResolveOptions) (st : RState) :
    Option (List RPkg × RState × List TraceEv) :=
  if (getManifestDependencies manifest opts).isEmpty then some ([], st, [])
  else resolveLevel reg rec manifest opts st

/-- `resolveDependencies(manifest, options)` with the manifest fetch
abstracted as `reg` (the composite of `getPackageManifest` and the
`.catch(handlerError)` that turns any fetch failure into an absent result).
`fuel` bounds the recursion depth; `none` models non-termination within the
given fuel. -/
def resolveDependencies (reg : String → String → Option JsManifest) :
    Nat → JsManifest → ResolveOptions → RState →
    Option (List RPkg × RState × List TraceEv)
  | 0, _, _, _ => none
  | fuel + 1, manifest, opts, st =>
    resolveBody reg (fun mm stmm => resolveDependencies reg fuel mm opts stmm)
      manifest opts st

/-! ### `getPackageManifest` (fetch-packages.js, lines 168-198) -/

/-- Errors surfaced by the pacote collaborator, discriminated the way the
code does (`error.code === 'ETARGET'` carrying `distTags.latest`,
`error.code === 'E404'`, anything else), plus the plain `Error` the function
itself constructs in the not-found/latest case. -/
inductive PacErr where
  | etarget (latest : String)
  | e404
  | notFound (message : String)
  | other (code : String)
deriving DecidableEq, Repr

/-- The relevant part of a packument: its `dist-tags.latest`. -/
structure Packument where
  latest : String
deriving DecidableEq, Repr

/-- The pacote registry collaborator: `pacote.manifest(spec)` and
`pacote.packument(name)`. -/
structure PacoteApi where
  manifest : String → Except PacErr JsManifest
  packument : String → Except PacErr Packument

/-- The manifest request with its `.catch` fallback chain (lines 172-186):
on `ETARGET` retry with the registry-supplied latest tag; on `E404` retry
with the unqualified name unless the request was for `"latest"`, in which
case fail with a not-found error naming the package; propagate every other
error unchanged. -/
def fetchManifestWithFallback (pac : PacoteApi) (packageName packageVersion : String) :
    Except PacErr JsManifest :=
  match pac.manifest (packageName ++ "@" ++ packageVersion) with
  | .ok m => .ok m
  | .error (.etarget latest) => pac.manifest (packageName ++ "@" ++ latest)
  | .error .e404 =>
    if packageVersion ≠ "latest" then pac.manifest packageName
    else .error (.notFound (packageName ++ "@" ++ packageVersion ++ " not found"))
  | .error e => .error e

/-- `getPackageManifest(packageName, packageVersion)`: the fallback fetch
paired with a packument request (skipped for `"latest"`), then `isLatest`
is attached: the packument's latest tag equals the resolved version, or
`true` when no packument was requested. -/
def getPackageManifest (pac : PacoteApi) (packageName : String)
    (packageVersion : String := "latest") : Except PacErr JsManifest := do
  let m ← fetchManifestWithFallback pac packageName packageVersion
  if packageVersion ≠ "latest" then
    let p ← pac.packument packageName
    pure { m with isLatest := decide (p.latest = m.version) }
  else
    pure { m with isLatest := true }

/-! ### Tarball file naming (fetch-packages.js, line 72) -/

/-- The path `downloadPackageTarball` streams the tarball to:
`destFolder/{name with the first '/' replaced by '-'}-{version}{-latest?}.tgz`. -/
def downloadPackageTarballPath (destFolder name version : String) (isLatest : Bool) : String :=
  destFolder ++ "/" ++ ⟨replaceFirstChar '/' '-' name.data⟩ ++ "-" ++ version ++
    (if isLatest then "-latest" else "") ++ ".tgz"

/-! ### `publishTarball` (npm-publish.js, lines 96-127) -/

/-- `path.basename`: the segment after the last `'/'`. -/
def basenameStr (p : String) : String := ⟨afterLastChar '/' p.data⟩

/-- The capture of the greedy dash regex `clearName.match("(.*)-")`:
everything before the last `'-'`; `none` models a null match (which the JS
code would crash on). -/
def matchNameGroup (clearName : List Char) : Option (List Char) :=
  beforeLastChar '-' clearName

/-- Index of the last occurrence of `pat` as a prefix of a suffix of the
list, or `none` when `pat` does not occur. -/
def lastPosOf (pat : List Char) : List Char → Option Nat
  | [] => none
  | c :: t =>
    match lastPosOf pat t with
    | some i => some (i + 1)
    | none => if listIsPrefix pat (c :: t) then some 0 else none

/-- The capture of `clearName.match("(\d.*).tgz")`: starting from the first
digit that admits a match, the greedy capture runs up to two characters
before the last occurrence of `"tgz"` lying at least two characters further
right; `none` models a null match. -/
def matchVersionGroup : List Char → Option (List Char)
  | [] => none
  | c :: t =>
    if c.isDigit then
      match lastPosOf ['t', 'g', 'z'] (c :: t) with
      | some i => if 2 ≤ i then some ((c :: t).take (i - 1)) else matchVersionGroup t
      | none => matchVersionGroup t
    else matchVersionGroup t

/-- The filename analysis and command construction of `publishTarball`
(lines 96-127, up to the `shellExec` call): reject non-`.tgz` files; detect
and strip the `-latest` marker; undo the scope-slash encoding for names
starting with `'@'`; derive name and version from the two regexes (a null
match crashes, modelled as an error); then build the `npm publish` command,
tagging `name@version` exactly when the name and version are non-empty and
the file was not marked latest. -/
def publishTarballPlan (filePath : String) (force : Bool) : Except String String :=
  let filename := basenameStr filePath
  if ¬ listEndsWith ".tgz".data filename.data then
    .error ("The file \"" ++ filename ++ "\" are not with tgz extension")
  else
    let isLatest := listContains "-latest.tgz".data filename.data
    let clearName0 := listReplaceFirst "-latest.tgz".data ".tgz".data filename.data
    let clearName :=
      if clearName0.head? = some '@' then replaceFirstChar '-' '/' clearName0
      else clearName0
    match matchNameGroup clearName, matchVersionGroup clearName with
    | some nameChars, some versionChars =>
      let packageName : String := ⟨nameChars⟩
      let packageVersion : String := ⟨versionChars⟩
      let tagPart :=
        if packageName ≠ "" ∧ packageVersion ≠ "" ∧ ¬ isLatest then
          " --tag " ++ packageName ++ "@" ++ packageVersion
        else ""
      .ok ("npm publish \"" ++ filePath ++ "\"" ++ tagPart ++
        (if force then " --force" else ""))
    | _, _ => .error "TypeError: cannot read property of null"

/-- The `(name, version, isLatest)` triple `publishTarball` derives from a
tarball filename, when the two regex matches succeed. -/
def parseTarballName (filename : String) : Option (String × String × Bool) :=
  let isLatest := listContains "-latest.tgz".data filename.data
  let clearName0 := listReplaceFirst "-latest.tgz".data ".tgz".data filename.data
  let clearName :=
    if clearName0.head? = some '@' then replaceFirstChar '-' '/' clearName0
    else clearName0
  match matchNameGroup clearName, matchVersionGroup clearName with
  | some nameChars, some versionChars => some (⟨nameChars⟩, ⟨versionChars⟩, isLatest)
  | _, _ => none

/-! ### Resolver lemma toolkit -/

/-- The `(name, version)` pair of a resolved entry. -/
def pairOf (p : RPkg) : String × String := (p.name, p.version)

/-- Memo key of a resolved entry. -/
def keyOf (p : RPkg) : String := pkgKey p.name p.version

/-- Memo key of a manifest. -/
def keyOfM (m : JsManifest) : String := pkgKey m.name m.version

/-- A manifest is well formed when its dependency map, as a JS object, has
pairwise-distinct keys. -/
def WFdeps (m : JsManifest) : Prop := (m.dependencies.map Prod.fst).Nodup

/-- The registry abstraction returns manifests for the requested package
name, and well-formed ones (JS objects cannot have duplicate keys). -/
def WFreg (reg : String → String → Option JsManifest) : Prop :=
  ∀ n v m, reg n v = some m → m.name = n ∧ WFdeps m

/-- Monotonicity of a recursive resolve call: the memo only grows, the depth
field never decreases, and the progress field is unchanged. -/
def RecMono (rec : JsManifest → RState → Option (List RPkg × RState × List TraceEv)) : Prop :=
  ∀ m st r, rec m st = some r →
    st.memo ⊆ r.2.1.memo ∧ st.depth ≤ r.2.1.depth ∧ r.2.1.progress = st.progress

/-- Freshness of a recursive resolve call: every emitted entry's key was not
in the memo on entry and is in the memo on exit, and every fetch issued is
for a key not in the memo on entry. -/
def RecFresh (rec : JsManifest → RState → Option (List RPkg × RState × List TraceEv)) : Prop :=
  ∀ m st res st2 tr, rec m st = some (res, st2, tr) →
    (∀ p ∈ res, keyOf p ∉ st.memo ∧ keyOf p ∈ st2.memo) ∧
    (∀ a b, TraceEv.fetch a b ∈ tr → pkgKey a b ∉ st.memo)

/-- No-duplicates output of a recursive resolve call on well-formed input. -/
def RecNodup (rec : JsManifest → RState → Option (List RPkg × RState × List TraceEv)) : Prop :=
  ∀ m st res st2 tr, WFdeps m → rec m st = some (res, st2, tr) →
    (res.map pairOf).Nodup

/-! ### Concrete registries and manifests used as witnesses -/

/-- Resolver options with dev/peer/optional all disabled. -/
def optsNone : ResolveOptions := ⟨false, false, false⟩

/-- The initial resolver state: empty memo, `depth` and `progress` both
starting at 0 (their `|| 0` defaults). -/
def st0 : RState := ⟨∅, 0, 0⟩

/-- Package `a@1.0.0`, depending on `b@1.0.0`. -/
def manifestA : JsManifest := ⟨"a", "1.0.0", true, [("b", "1.0.0")], [], [], []⟩

/-- Package `b@1.0.0`, depending back on `a@1.0.0` (dependency cycle). -/
def manifestB : JsManifest := ⟨"b", "1.0.0", true, [("a", "1.0.0")], [], [], []⟩

/-- A registry with the two-package cycle `a ↔ b`. -/
def cycleReg : String → String → Option JsManifest := fun n v =>
  if n = "a" ∧ v = "1.0.0" then some manifestA
  else if n = "b" ∧ v = "1.0.0" then some manifestB
  else none

/-- A root manifest pointing into the cycle. -/
def cycleRoot : JsManifest := ⟨"root", "1.0.0", true, [("a", "1.0.0")], [], [], []⟩

/-- The memo keys `cycleReg` can ever produce. -/
def cycleKeys : Finset String := {"a@1.0.0", "b@1.0.0"}

/-- Leaf package `x@1.0.0` with no dependencies. -/
def leafX : JsManifest := ⟨"x", "1.0.0", true, [], [], [], []⟩

/-- Leaf package `y@1.0.0` with no dependencies. -/
def leafY : JsManifest := ⟨"y", "1.0.0", true, [], [], [], []⟩

/-- A registry with the two leaves `x` and `y` (and nothing else, so fetching
any other package, e.g. `b`, fails). -/
def twoReg : String → String → Option JsManifest := fun n v =>
  if n = "x" ∧ v = "1.0.0" then some leafX
  else if n = "y" ∧ v = "1.0.0" then some leafY
  else none

/-- A root manifest with the two leaf dependencies. -/
def twoRoot : JsManifest := ⟨"root", "1.0.0", true, [("x", "1.0.0"), ("y", "1.0.0")], [], [], []⟩

/-- The same root with a dependency on `b` (whose fetch fails under
`twoReg`) inserted between `x` and `y`. -/
def mixedRoot : JsManifest :=
  ⟨"root", "1.0.0", true, [("x", "1.0.0"), ("b", "1.0.0"), ("y", "1.0.0")], [], [], []⟩

/-- Result list of resolving `twoRoot` against `twoReg` from the initial
state. -/
def twoRunRes : List RPkg := [⟨"x", "1.0.0", true⟩, ⟨"y", "1.0.0", true⟩]

/-- Final state of that run: both keys memoized, the shared `depth` field
mutated to 2, progress untouched at 0. -/
def twoRunSt : RState := ⟨{"y@1.0.0", "x@1.0.0"}, 2, 0⟩

/-- Trace of that run: both fetches, then one logger call per package, each
reporting cumulative progress 0. -/
def twoRunTr : List TraceEv :=
  [TraceEv.fetch "x" "1.0.0", TraceEv.fetch "y" "1.0.0",
    TraceEv.log "Resolving dependencies: x@1.0.0" 0,
    TraceEv.log "Resolving dependencies: y@1.0.0" 0]

/-- Manifest for the `p` package, used by the pacote model witness. -/
def pManifest : JsManifest := ⟨"p", "2.0.0", false, [], [], [], []⟩

/-- A pacote collaborator where `p@1.0.0` answers a version-target mismatch
whose registry-supplied latest is `2.0.0`. -/
def pacEx : PacoteApi :=
  { manifest := fun s =>
      if s = "p@1.0.0" then .error (.etarget "2.0.0")
      else if s = "p@2.0.0" then .ok pManifest
      else .error (.other "EOTHER")
    packument := fun s =>
      if s = "p" then .ok ⟨"2.0.0"⟩ else .error (.other "EOTHER") }

theorem resolveStep_none (rec : JsManifest → RState → Option (List RPkg × RState × List TraceEv))
    (denom : Nat) (m : JsManifest) : resolveStep rec denom none m = none := rfl

theorem foldl_resolveStep_none
    (rec : JsManifest → RState → Option (List RPkg × RState × List TraceEv))
    (denom : Nat) (l : List JsManifest) :
    l.foldl (resolveStep rec denom) none = none := by
  induction l with
  | nil => rfl
  | cons m t ih => rw [List.foldl_cons, resolveStep_none, ih]

/-- Under depth monotonicity the progress-accounting guard `depth === 0` in
the reduce step is never taken (the step has just set `depth := depth + 1`
on the shared options object), so the step ignores `denom` and passes the
child state through. -/
theorem resolveStep_some
    (rec : JsManifest → RState → Option (List RPkg × RState × List TraceEv))
    (denom : Nat) (accRes : List RPkg) (accSt : RState) (accTr : List TraceEv)
    (m : JsManifest) (hmono : RecMono rec) :
    resolveStep rec denom (some (accRes, accSt, accTr)) m =
      match rec m { accSt with depth := accSt.depth + 1 } with
      | none => none
      | some (childRes, stc, trc) =>
          some (accRes ++ ⟨m.name, m.version, m.isLatest⟩ :: childRes, stc, accTr ++ trc) := by
  unfold resolveStep
  cases h : rec m { accSt with depth := accSt.depth + 1 } with
  | none => simp only [h]
  | some r =>
    obtain ⟨childRes, stc, trc⟩ := r
    have hd : accSt.depth + 1 ≤ stc.depth := (hmono _ _ _ h).2.1
    have hz : ¬ stc.depth = 0 := by omega
    simp only [h, if_neg hz]

theorem foldl_resolveStep_mono
    (rec : JsManifest → RState → Option (List RPkg × RState × List TraceEv))
    (denom : Nat) (hmono : RecMono rec) :
    ∀ (l : List JsManifest) (res0 : List RPkg) (st0 : RState) (tr0 : List TraceEv)
      (res : List RPkg) (st : RState) (tr : List TraceEv),
      l.foldl (resolveStep rec denom) (some (res0, st0, tr0)) = some (res, st, tr) →
      st0.memo ⊆ st.memo ∧ st0.depth ≤ st.depth ∧ st.progress = st0.progress := by
  intro l
  induction l with
  | nil =>
    intro res0 st0 tr0 res st tr h
    simp only [List.foldl_nil, Option.some_inj] at h
    obtain ⟨rfl, rfl, rfl⟩ := h
    exact ⟨subset_rfl, le_rfl, rfl⟩
  | cons m rest ih =>
    intro res0 st0 tr0 res st tr h
    rw [List.foldl_cons, resolveStep_some rec denom _ _ _ _ hmono] at h
    cases hrec : rec m { st0 with depth := st0.depth + 1 } with
    | none =>
      rw [hrec, foldl_resolveStep_none] at h
      exact absurd h (by simp)
    | some r =>
      obtain ⟨childRes, stc, trc⟩ := r
      rw [hrec] at h
      have h1 := hmono _ _ _ hrec
      have h2 := ih _ _ _ _ _ _ h
      refine ⟨h1.1.trans h2.1, ?_, by rw [h2.2.2, h1.2.2]⟩
      have := h1.2.1
      simp only at this
      omega

/-- Freshness through the reduce: with `S` inside the base memo and every
pending manifest's key outside `S`, no emitted entry and no issued fetch of
the fold touches a key of `S`. -/
theorem foldl_resolveStep_fresh
    (rec : JsManifest → RState → Option (List RPkg × RState × List TraceEv))
    (denom : Nat) (hmono : RecMono rec) (hfresh : RecFresh rec) (S : Finset String) :
    ∀ (l : List JsManifest) (res0 : List RPkg) (st0 : RState) (tr0 : List TraceEv)
      (res : List RPkg) (st : RState) (tr : List TraceEv),
      l.foldl (resolveStep rec denom) (some (res0, st0, tr0)) = some (res, st, tr) →
      S ⊆ st0.memo →
      (∀ m ∈ l, keyOfM m ∉ S) →
      (∀ p ∈ res0, keyOf p ∉ S) →
      (∀ a b, TraceEv.fetch a b ∈ tr0 → pkgKey a b ∉ S) →
      (∀ p ∈ res, keyOf p ∉ S) ∧ (∀ a b, TraceEv.fetch a b ∈ tr → pkgKey a b ∉ S) := by
  intro l
  induction l with
  | nil =>
    intro res0 st0 tr0 res st tr h hS hl hres0 htr0
    simp only [List.foldl_nil, Option.some_inj] at h
    obtain ⟨rfl, rfl, rfl⟩ := h
    exact ⟨hres0, htr0⟩
  | cons m rest ih =>
    intro res0 st0 tr0 res st tr h hS hl hres0 htr0
    rw [List.foldl_cons, resolveStep_some rec denom _ _ _ _ hmono] at h
    cases hrec : rec m { st0 with depth := st0.depth + 1 } with
    | none =>
      rw [hrec, foldl_resolveStep_none] at h
      exact absurd h (by simp)
    | some r =>
      obtain ⟨childRes, stc, trc⟩ := r
      rw [hrec] at h
      have hf := hfresh _ _ _ _ _ hrec
      have hSc : S ⊆ stc.memo := hS.trans (hmono _ _ _ hrec).1
      refine ih _ _ _ _ _ _ h hSc (fun x hx => hl x (List.mem_cons_of_mem m hx)) ?_ ?_
      · intro p hp
        rcases List.mem_append.1 hp with hp | hp
        · exact hres0 p hp
        · rcases List.mem_cons.1 hp with rfl | hp
          · exact hl m (List.mem_cons_self m rest)
          · intro hmem
            exact ((hf.1 p hp).1) (hS hmem)
      · intro a b hab
        rcases List.mem_append.1 hab with hab | hab
        · exact htr0 a b hab
        · intro hmem
          exact (hf.2 a b hab) (hS hmem)

/-- Folding key insertions only grows a finite set. -/
theorem foldlInsert_superset :
    ∀ (l : List JsManifest) (s : Finset String),
      s ⊆ l.foldl (fun acc m => insert (keyOfM m) acc) s := by
  intro l
  induction l with
  | nil => intro s; exact subset_rfl
  | cons m t ih =>
    intro s
    exact (Finset.subset_insert _ _).trans (ih _)

/-- The memo after the `.each` stage contains the previous memo. -/
theorem memoAfterEach_superset (st : RState) (mans1 : List JsManifest) :
    st.memo ⊆ memoAfterEach st mans1 :=
  foldlInsert_superset mans1 st.memo

/-- Every processed manifest's key is in the memo after the `.each` stage. -/
theorem mem_memoAfterEach (st : RState) (mans1 : List JsManifest) :
    ∀ m ∈ mans1, keyOfM m ∈ memoAfterEach st mans1 := by
  suffices h : ∀ (l : List JsManifest) (s : Finset String) (m : JsManifest), m ∈ l →
      keyOfM m ∈ l.foldl (fun acc m => insert (keyOfM m) acc) s by
    exact fun m hm => h mans1 st.memo m hm
  intro l
  induction l with
  | nil => intro s m hm; exact absurd hm (List.not_mem_nil m)
  | cons x t ih =>
    intro s m hm
    rcases List.mem_cons.1 hm with rfl | hm
    · exact foldlInsert_superset t _ (Finset.mem_insert_self _ _)
    · exact ih _ m hm

/-- Names of fetched manifests form a sublist of the requested edge names
when the registry returns manifests for the requested name. -/
theorem levelMans_names_sublist (reg : String → String → Option JsManifest)
    (hn : ∀ n v m, reg n v = some m → m.name = n) :
    ∀ deps1 : List (String × String),
      ((levelMans reg deps1).map JsManifest.name).Sublist (deps1.map Prod.fst) := by
  intro deps1
  induction deps1 with
  | nil => simp [levelMans]
  | cons d t ih =>
    show ((List.filterMap _ (d :: t)).map JsManifest.name).Sublist _
    rw [List.filterMap_cons]
    cases hreg : reg d.1 d.2 with
    | none => exact ih.cons d.1
    | some m =>
      simp only [List.map_cons]
      rw [hn _ _ _ hreg]
      exact ih.cons₂ d.1

/-- Keys after a JS assignment come from the old keys or the assigned key. -/
theorem setKey_keys_mem (k v : String) :
    ∀ (l : List (String × String)) (x : String), x ∈ (setKey l k v).map Prod.fst →
      x = k ∨ x ∈ l.map Prod.fst := by
  intro l
  induction l with
  | nil =>
    intro x hx
    simp [setKey] at hx
    exact Or.inl hx
  | cons p t ih =>
    intro x hx
    obtain ⟨k0, v0⟩ := p
    by_cases hk : k0 = k
    · simp only [setKey, if_pos hk, List.map_cons, List.mem_cons] at hx
      rcases hx with rfl | hx
      · exact Or.inl rfl
      · exact Or.inr (List.mem_cons_of_mem _ hx)
    · simp only [setKey, if_neg hk, List.map_cons, List.mem_cons] at hx
      rcases hx with rfl | hx
      · exact Or.inr (List.mem_cons_self _ _)
      · rcases ih x hx with h | h
        · exact Or.inl h
        · exact Or.inr (List.mem_cons_of_mem _ h)

/-- Keys of the merged dependency map stay pairwise distinct under a single
JS assignment. -/
theorem setKey_keys_nodup (k v : String) :
    ∀ l : List (String × String), (l.map Prod.fst).Nodup →
      ((setKey l k v).map Prod.fst).Nodup := by
  intro l
  induction l with
  | nil => intro _; simp [setKey]
  | cons p t ih =>
    intro h
    obtain ⟨k0, v0⟩ := p
    simp only [List.map_cons, List.nodup_cons] at h
    by_cases hk : k0 = k
    · simp only [setKey, if_pos hk, List.map_cons, List.nodup_cons]
      exact ⟨by rw [← hk]; exact h.1, h.2⟩
    · simp only [setKey, if_neg hk, List.map_cons, List.nodup_cons]
      refine ⟨fun hmem => ?_, ih h.2⟩
      rcases setKey_keys_mem k v t k0 hmem with rfl | hmem
      · exact hk rfl
      · exact h.1 hmem

/-- `lodash.merge` keeps the destination's keys pairwise distinct. -/
theorem mergeAssoc_keys_nodup :
    ∀ (src dst : List (String × String)), (dst.map Prod.fst).Nodup →
      ((mergeAssoc dst src).map Prod.fst).Nodup := by
  intro src
  induction src with
  | nil => intro dst h; exact h
  | cons p t ih =>
    intro dst h
    obtain ⟨k, v⟩ := p
    exact ih _ (setKey_keys_nodup k v dst h)

/-- The merged map of a well-formed manifest has pairwise-distinct keys. -/
theorem mergedDeps_keys_nodup (m : JsManifest) (opts : ResolveOptions) (h : WFdeps m) :
    ((mergedDeps m opts).map Prod.fst).Nodup :=
  mergeAssoc_keys_nodup _ _ (mergeAssoc_keys_nodup _ _ (mergeAssoc_keys_nodup _ _ h))

/-- Normalization does not change the edge names. -/
theorem getManifestDependencies_names (m : JsManifest) (opts : ResolveOptions) :
    (getManifestDependencies m opts).map Prod.fst = (mergedDeps m opts).map Prod.fst := by
  unfold getManifestDependencies
  rw [List.map_map]
  rfl

theorem mem_levelDeps1 (st : RState) (deps : List (String × String)) (d : String × String)
    (h : d ∈ levelDeps1 st deps) : d ∈ deps ∧ pkgKey d.1 d.2 ∉ st.memo := by
  unfold levelDeps1 at h
  have h1 := List.mem_of_mem_filter h
  have h2 := List.of_mem_filter h
  simp only [decide_eq_true_eq] at h2
  exact ⟨h1, h2⟩

theorem mem_levelMans (reg : String → String → Option JsManifest)
    (deps1 : List (String × String)) (m : JsManifest) (h : m ∈ levelMans reg deps1) :
    ∃ d ∈ deps1, reg d.1 d.2 = some m := by
  unfold levelMans at h
  rcases List.mem_filterMap.1 h with ⟨d, hd, hr⟩
  exact ⟨d, hd, hr⟩

theorem mem_levelMans1 (st : RState) (mans : List JsManifest) (m : JsManifest)
    (h : m ∈ levelMans1 st mans) : m ∈ mans ∧ keyOfM m ∉ st.memo := by
  unfold levelMans1 at h
  have h1 := List.mem_of_mem_filter h
  have h2 := List.of_mem_filter h
  simp only [decide_eq_true_eq] at h2
  exact ⟨h1, h2⟩

/-- A single resolve level only grows the memo, never decreases the depth
field and leaves the progress fraction untouched. -/
theorem resolveBody_mono (reg : String → String → Option JsManifest)
    (rec : JsManifest → RState → Option (List RPkg × RState × List TraceEv))
    (manifest : JsManifest) (opts : ResolveOptions) (st : RState)
    (res : List RPkg) (st2 : RState) (tr : List TraceEv)
    (hmono : RecMono rec)
    (h : resolveBody reg rec manifest opts st = some (res, st2, tr)) :
    st.memo ⊆ st2.memo ∧ st.depth ≤ st2.depth ∧ st2.progress = st.progress := by
  unfold resolveBody at h
  by_cases he : (getManifestDependencies manifest opts).isEmpty
  · rw [if_pos he] at h
    simp only [Option.some_inj] at h
    obtain ⟨rfl, rfl, rfl⟩ := h
    exact ⟨subset_rfl, le_rfl, rfl⟩
  · rw [if_neg he] at h
    unfold resolveLevel at h
    simp only [Option.map_eq_some'] at h
    obtain ⟨r, hr, heq⟩ := h
    obtain ⟨res', st2', tr'⟩ := r
    simp only [Prod.mk.injEq] at heq
    obtain ⟨rfl, rfl, rfl⟩ := heq
    have hf := foldl_resolveStep_mono rec _ hmono _ _ _ _ _ _ _ hr
    refine ⟨(memoAfterEach_superset st _).trans hf.1, hf.2.1, hf.2.2⟩

/-- `resolveDependencies` at any fuel is monotone in the sense of
`RecMono`. -/
theorem resolveDependencies_mono (reg : String → String → Option JsManifest)
    (opts : ResolveOptions) :
    ∀ fuel, RecMono (fun mm stmm => resolveDependencies reg fuel mm opts stmm) := by
  intro fuel
  induction fuel with
  | zero =>
    intro m st r h
    exact absurd h (by simp [resolveDependencies])
  | succ fuel ih =>
    intro m st r h
    obtain ⟨res, st2, tr⟩ := r
    exact resolveBody_mono reg _ m opts st res st2 tr ih h

/-- Keys of everything the reduce emits end up in the final memo. -/
theorem foldl_resolveStep_keys
    (rec : JsManifest → RState → Option (List RPkg × RState × List TraceEv))
    (denom : Nat) (hmono : RecMono rec) (hfresh : RecFresh rec) :
    ∀ (l : List JsManifest) (res0 : List RPkg) (st0 : RState) (tr0 : List TraceEv)
      (res : List RPkg) (st : RState) (tr : List TraceEv),
      l.foldl (resolveStep rec denom) (some (res0, st0, tr0)) = some (res, st, tr) →
      (∀ p ∈ res0, keyOf p ∈ st0.memo) →
      (∀ m ∈ l, keyOfM m ∈ st0.memo) →
      ∀ p ∈ res, keyOf p ∈ st.memo := by
  intro l
  induction l with
  | nil =>
    intro res0 st0 tr0 res st tr h hres0 _
    simp only [List.foldl_nil, Option.some_inj] at h
    obtain ⟨rfl, rfl, rfl⟩ := h
    exact hres0
  | cons m rest ih =>
    intro res0 st0 tr0 res st tr h hres0 hl
    rw [List.foldl_cons, resolveStep_some rec denom _ _ _ _ hmono] at h
    cases hrec : rec m { st0 with depth := st0.depth + 1 } with
    | none =>
      rw [hrec, foldl_resolveStep_none] at h
      exact absurd h (by simp)
    | some r =>
      obtain ⟨childRes, stc, trc⟩ := r
      rw [hrec] at h
      have hsub : st0.memo ⊆ stc.memo := (hmono _ _ _ hrec).1
      have hf := hfresh _ _ _ _ _ hrec
      refine ih _ _ _ _ _ _ h ?_ ?_
      · intro p hp
        rcases List.mem_append.1 hp with hp | hp
        · exact hsub (hres0 p hp)
        · rcases List.mem_cons.1 hp with rfl | hp
          · exact hsub (hl m (List.mem_cons_self m rest))
          · exact (hf.1 p hp).2
      · intro x hx
        exact hsub (hl x (List.mem_cons_of_mem m hx))

/-- A single resolve level is fresh in the sense of `RecFresh`: it emits and
fetches only keys outside the entry memo, and everything it emits is in the
exit memo. -/
theorem resolveBody_fresh (reg : String → String → Option JsManifest)
    (rec : JsManifest → RState → Option (List RPkg × RState × List TraceEv))
    (manifest : JsManifest) (opts : ResolveOptions) (st : RState)
    (res : List RPkg) (st2 : RState) (tr : List TraceEv)
    (hmono : RecMono rec) (hfresh : RecFresh rec)
    (h : resolveBody reg rec manifest opts st = some (res, st2, tr)) :
    (∀ p ∈ res, keyOf p ∉ st.memo ∧ keyOf p ∈ st2.memo) ∧
    (∀ a b, TraceEv.fetch a b ∈ tr → pkgKey a b ∉ st.memo) := by
  unfold resolveBody at h
  by_cases he : (getManifestDependencies manifest opts).isEmpty
  · rw [if_pos he] at h
    simp only [Option.some_inj] at h
    obtain ⟨rfl, rfl, rfl⟩ := h
    constructor
    · intro p hp; exact absurd hp (List.not_mem_nil p)
    · intro a b hab; exact absurd hab (List.not_mem_nil _)
  · rw [if_neg he] at h
    unfold resolveLevel at h
    simp only [Option.map_eq_some'] at h
    obtain ⟨r, hr, heq⟩ := h
    obtain ⟨res', st2', tr'⟩ := r
    simp only [Prod.mk.injEq] at heq
    obtain ⟨rfl, rfl, rfl⟩ := heq
    have hS : st.memo ⊆
        ({ st with memo := memoAfterEach st (levelMans1 st (levelMans reg (levelDeps1 st (getManifestDependencies manifest opts)))) } : RState).memo :=
      memoAfterEach_superset st _
    have hmans1 : ∀ m ∈ levelMans1 st (levelMans reg (levelDeps1 st (getManifestDependencies manifest opts))),
        keyOfM m ∉ st.memo := fun m hm => (mem_levelMans1 st _ m hm).2
    have hfr := foldl_resolveStep_fresh rec _ hmono hfresh st.memo _ _ _ _ _ _ _ hr
      hS hmans1 (fun p hp => absurd hp (List.not_mem_nil p))
      (fun a b hab => absurd hab (List.not_mem_nil _))
    have hkeys := foldl_resolveStep_keys rec _ hmono hfresh _ _ _ _ _ _ _ hr
      (fun p hp => absurd hp (List.not_mem_nil p))
      (fun m hm => mem_memoAfterEach st _ m hm)
    constructor
    · exact fun p hp => ⟨hfr.1 p hp, hkeys p hp⟩
    · intro a b hab
      rcases List.mem_append.1 hab with hab | hab
      · rcases List.mem_append.1 hab with hab | hab
        · rcases List.mem_map.1 hab with ⟨d, hd, hde⟩
          have hd2 := (mem_levelDeps1 st _ d hd).2
          cases hde
          exact hd2
        · rcases List.mem_map.1 hab with ⟨mm, _, hde⟩
          cases hde
      · exact hfr.2 a b hab

/-- `resolveDependencies` at any fuel is fresh in the sense of `RecFresh`. -/
theorem resolveDependencies_fresh (reg : String → String → Option JsManifest)
    (opts : ResolveOptions) :
    ∀ fuel, RecFresh (fun mm stmm => resolveDependencies reg fuel mm opts stmm) := by
  intro fuel
  induction fuel with
  | zero =>
    intro m st res st2 tr h
    exact absurd h (by simp [resolveDependencies])
  | succ fuel ih =>
    intro m st res st2 tr h
    exact resolveBody_fresh reg _ m opts st res st2 tr
      (resolveDependencies_mono reg opts fuel) ih h

theorem keyOf_eq_of_pairOf_eq {p q : RPkg} (h : pairOf p = pairOf q) : keyOf p = keyOf q := by
  unfold pairOf at h
  simp only [Prod.mk.injEq] at h
  unfold keyOf
  rw [h.1, h.2]

theorem keyOf_eq_keyOfM {p : RPkg} {m : JsManifest} (h : pairOf p = (m.name, m.version)) :
    keyOf p = keyOfM m := by
  unfold pairOf at h
  simp only [Prod.mk.injEq] at h
  unfold keyOf keyOfM
  rw [h.1, h.2]

/-- Main invariant of the reduce for the no-duplicates property: with
pairwise-distinct pending manifests whose keys are already memoized and
whose pairs all lie in `P`, and with `M` a subset of the base memo, the fold
emits a duplicate-free list, each entry's pair being either one of `P` or
fresh with respect to `M`. -/
theorem foldl_resolveStep_nodup
    (rec : JsManifest → RState → Option (List RPkg × RState × List TraceEv))
    (denom : Nat) (hmono : RecMono rec) (hfresh : RecFresh rec) (hnodup : RecNodup rec)
    (M : Finset String) (P : List (String × String)) :
    ∀ (l : List JsManifest) (res0 : List RPkg) (st0 : RState) (tr0 : List TraceEv)
      (res : List RPkg) (st : RState) (tr : List TraceEv),
      l.foldl (resolveStep rec denom) (some (res0, st0, tr0)) = some (res, st, tr) →
      M ⊆ st0.memo →
      (l.map (fun m => (m.name, m.version))).Nodup →
      (∀ m ∈ l, WFdeps m) →
      (∀ m ∈ l, keyOfM m ∈ st0.memo) →
      (∀ m ∈ l, (m.name, m.version) ∈ P) →
      (∀ m ∈ l, (m.name, m.version) ∉ res0.map pairOf) →
      (res0.map pairOf).Nodup →
      (∀ p ∈ res0, keyOf p ∈ st0.memo) →
      (∀ p ∈ res0, pairOf p ∈ P ∨ keyOf p ∉ M) →
      (res.map pairOf).Nodup ∧ (∀ p ∈ res, pairOf p ∈ P ∨ keyOf p ∉ M) := by
  intro l
  induction l with
  | nil =>
    intro res0 st0 tr0 res st tr h _ _ _ _ _ _ h7 _ h9
    simp only [List.foldl_nil, Option.some_inj] at h
    obtain ⟨rfl, rfl, rfl⟩ := h
    exact ⟨h7, h9⟩
  | cons m rest ih =>
    intro res0 st0 tr0 res st tr h hM h2 h3 h4 h5 h6 h7 h8 h9
    rw [List.foldl_cons, resolveStep_some rec denom _ _ _ _ hmono] at h
    cases hrec : rec m { st0 with depth := st0.depth + 1 } with
    | none =>
      rw [hrec, foldl_resolveStep_none] at h
      exact absurd h (by simp)
    | some r =>
      obtain ⟨childRes, stc, trc⟩ := r
      rw [hrec] at h
      have hsub : st0.memo ⊆ stc.memo := (hmono _ _ _ hrec).1
      have hfr := hfresh _ _ _ _ _ hrec
      have hchildNodup : (childRes.map pairOf).Nodup :=
        hnodup _ _ _ _ _ (h3 m (List.mem_cons_self m rest)) hrec
      have hchildFreshM : ∀ p ∈ childRes, keyOf p ∉ st0.memo := fun p hp => (hfr.1 p hp).1
      have hchildIn : ∀ p ∈ childRes, keyOf p ∈ stc.memo := fun p hp => (hfr.1 p hp).2
      have hmKey : keyOfM m ∈ st0.memo := h4 m (List.mem_cons_self m rest)
      have hmPair : (m.name, m.version) ∈ P := h5 m (List.mem_cons_self m rest)
      have h2' := List.nodup_cons.1 h2
      -- the new accumulated result
      have hres0' : ((res0 ++ (⟨m.name, m.version, m.isLatest⟩ : RPkg) :: childRes).map pairOf).Nodup := by
        rw [List.map_append, List.map_cons, List.nodup_append]
        refine ⟨h7, List.nodup_cons.2 ⟨?_, hchildNodup⟩, ?_⟩
        · intro hmem
          rcases List.mem_map.1 hmem with ⟨p, hp, hpe⟩
          exact hchildFreshM p hp (by rw [keyOf_eq_keyOfM hpe]; exact hmKey)
        · intro a ha hb
          rcases List.mem_map.1 ha with ⟨p, hp, rfl⟩
          rcases List.mem_cons.1 hb with hb | hb
          · have hb' : pairOf p = (m.name, m.version) := hb
            exact h6 m (List.mem_cons_self m rest) (hb' ▸ List.mem_map_of_mem pairOf hp)
          · rcases List.mem_map.1 hb with ⟨q, hq, hqe⟩
            exact hchildFreshM q hq
              (by rw [keyOf_eq_of_pairOf_eq hqe]; exact h8 p hp)
      refine ih _ _ _ _ _ _ h (hM.trans hsub) h2'.2 (fun x hx => h3 x (List.mem_cons_of_mem m hx))
        (fun x hx => hsub (h4 x (List.mem_cons_of_mem m hx)))
        (fun x hx => h5 x (List.mem_cons_of_mem m hx)) ?_ hres0' ?_ ?_
      · -- remaining pairs are not among the accumulated ones
        intro x hx hmem
        rw [List.map_append, List.map_cons] at hmem
        rcases List.mem_append.1 hmem with hmem | hmem
        · exact h6 x (List.mem_cons_of_mem m hx) hmem
        · rcases List.mem_cons.1 hmem with hmem | hmem
          · have hmem' : (x.name, x.version) = (m.name, m.version) := hmem
            refine h2'.1 ?_
            show (m.name, m.version) ∈ _
            rw [← hmem']
            exact List.mem_map_of_mem _ hx
          · rcases List.mem_map.1 hmem with ⟨q, hq, hqe⟩
            exact hchildFreshM q hq
              (by rw [keyOf_eq_keyOfM hqe]; exact h4 x (List.mem_cons_of_mem m hx))
      · intro p hp
        rcases List.mem_append.1 hp with hp | hp
        · exact hsub (h8 p hp)
        · rcases List.mem_cons.1 hp with rfl | hp
          · exact hsub hmKey
          · exact hchildIn p hp
      · intro p hp
        rcases List.mem_append.1 hp with hp | hp
        · exact h9 p hp
        · rcases List.mem_cons.1 hp with rfl | hp
          · exact Or.inl hmPair
          · exact Or.inr (fun hmem => hchildFreshM p hp (hM hmem))

/-- The manifests surviving both memo filters carry pairwise-distinct
`(name, version)` pairs: their names come from the keys of the merged
dependency map (a JS object), which are pairwise distinct, and a faithful
registry answers with the requested name. -/
theorem mans1_pairs_nodup (reg : String → String → Option JsManifest) (st : RState)
    (manifest : JsManifest) (opts : ResolveOptions)
    (hreg : WFreg reg) (hwf : WFdeps manifest) :
    ((levelMans1 st (levelMans reg (levelDeps1 st (getManifestDependencies manifest opts)))).map
      (fun m => (m.name, m.version))).Nodup := by
  have h0 : ((getManifestDependencies manifest opts).map Prod.fst).Nodup := by
    rw [getManifestDependencies_names]
    exact mergedDeps_keys_nodup _ _ hwf
  have h1 : ((levelDeps1 st (getManifestDependencies manifest opts)).map Prod.fst).Sublist
      ((getManifestDependencies manifest opts).map Prod.fst) :=
    (List.filter_sublist _).map Prod.fst
  have h2 := levelMans_names_sublist reg (fun n v m hm => (hreg n v m hm).1)
    (levelDeps1 st (getManifestDependencies manifest opts))
  have h3 : ((levelMans1 st (levelMans reg (levelDeps1 st (getManifestDependencies manifest opts)))).map
      JsManifest.name).Sublist
      ((levelMans reg (levelDeps1 st (getManifestDependencies manifest opts))).map JsManifest.name) :=
    (List.filter_sublist _).map JsManifest.name
  have hnames : ((levelMans1 st (levelMans reg (levelDeps1 st (getManifestDependencies manifest opts)))).map
      JsManifest.name).Nodup :=
    ((h3.trans h2).trans h1).nodup h0
  have hre : (levelMans1 st (levelMans reg (levelDeps1 st (getManifestDependencies manifest opts)))).map
      JsManifest.name =
      ((levelMans1 st (levelMans reg (levelDeps1 st (getManifestDependencies manifest opts)))).map
        (fun m => (m.name, m.version))).map Prod.fst := by
    rw [List.map_map]
    rfl
  rw [hre] at hnames
  exact List.Nodup.of_map Prod.fst hnames

/-- A single resolve level emits no duplicate `(name, version)` pair. -/
theorem resolveBody_nodup (reg : String → String → Option JsManifest)
    (rec : JsManifest → RState → Option (List RPkg × RState × List TraceEv))
    (manifest : JsManifest) (opts : ResolveOptions) (st : RState)
    (res : List RPkg) (st2 : RState) (tr : List TraceEv)
    (hreg : WFreg reg) (hwf : WFdeps manifest)
    (hmono : RecMono rec) (hfresh : RecFresh rec) (hnodup : RecNodup rec)
    (h : resolveBody reg rec manifest opts st = some (res, st2, tr)) :
    (res.map pairOf).Nodup := by
  unfold resolveBody at h
  by_cases he : (getManifestDependencies manifest opts).isEmpty
  · rw [if_pos he] at h
    simp only [Option.some_inj] at h
    obtain ⟨rfl, rfl, rfl⟩ := h
    exact List.nodup_nil
  · rw [if_neg he] at h
    unfold resolveLevel at h
    simp only [Option.map_eq_some'] at h
    obtain ⟨r, hr, heq⟩ := h
    obtain ⟨res', st2', tr'⟩ := r
    simp only [Prod.mk.injEq] at heq
    obtain ⟨rfl, rfl, rfl⟩ := heq
    have hpairs := mans1_pairs_nodup reg st manifest opts hreg hwf
    have hfold := foldl_resolveStep_nodup rec _ hmono hfresh hnodup st.memo
      ((levelMans1 st (levelMans reg (levelDeps1 st (getManifestDependencies manifest opts)))).map
        (fun m => (m.name, m.version)))
      _ _ _ _ _ _ _ hr (memoAfterEach_superset st _) hpairs
      (fun m hm => by
        rcases mem_levelMans reg _ m (mem_levelMans1 st _ m hm).1 with ⟨d, _, hd⟩
        exact (hreg _ _ _ hd).2)
      (fun m hm => mem_memoAfterEach st _ m hm)
      (fun m hm => List.mem_map_of_mem _ hm)
      (fun m _ hmem => by simp at hmem)
      List.nodup_nil
      (fun p hp => absurd hp (List.not_mem_nil p))
      (fun p hp => absurd hp (List.not_mem_nil p))
    exact hfold.1

/-- `resolveDependencies` at any fuel emits no duplicate pair, for a
well-formed registry. -/
theorem resolveDependencies_nodup (reg : String → String → Option JsManifest)
    (opts : ResolveOptions) (hreg : WFreg reg) :
    ∀ fuel, RecNodup (fun mm stmm => resolveDependencies reg fuel mm opts stmm) := by
  intro fuel
  induction fuel with
  | zero =>
    intro m st res st2 tr _ h
    exact absurd h (by simp [resolveDependencies])
  | succ fuel ih =>
    intro m st res st2 tr hwf h
    exact resolveBody_nodup reg _ m opts st res st2 tr hreg hwf
      (resolveDependencies_mono reg opts fuel)
      (resolveDependencies_fresh reg opts fuel) ih h

/-- The reduce succeeds when every recursive call succeeds from any state
whose memo satisfies a memo-monotone predicate `P` that holds initially. -/
theorem foldl_resolveStep_isSome
    (rec : JsManifest → RState → Option (List RPkg × RState × List TraceEv))
    (denom : Nat) (hmono : RecMono rec) (P : Finset String → Prop)
    (hP : ∀ s t : Finset String, s ⊆ t → P s → P t)
    (hrec : ∀ (mm : JsManifest) (stx : RState), P stx.memo → (rec mm stx).isSome) :
    ∀ (l : List JsManifest) (res0 : List RPkg) (st0 : RState) (tr0 : List TraceEv),
      P st0.memo → (l.foldl (resolveStep rec denom) (some (res0, st0, tr0))).isSome := by
  intro l
  induction l with
  | nil => intro res0 st0 tr0 _; rfl
  | cons m rest ih =>
    intro res0 st0 tr0 hp
    rw [List.foldl_cons, resolveStep_some rec denom _ _ _ _ hmono]
    have hin : P ({ st0 with depth := st0.depth + 1 } : RState).memo := hp
    cases hrec2 : rec m { st0 with depth := st0.depth + 1 } with
    | none =>
      have hsome := hrec m { st0 with depth := st0.depth + 1 } hin
      rw [hrec2] at hsome
      exact absurd hsome (by simp)
    | some r =>
      obtain ⟨childRes, stc, trc⟩ := r
      have hpc : P stc.memo := hP _ _ (hmono _ _ _ hrec2).1 hin
      exact ih _ _ _ hpc

/-- Fuel sufficiency: when every manifest the registry can return has its
key inside a finite universe `U`, any fuel exceeding the number of universe
keys missing from the memo makes the resolver return a result — the memo
grows by at least one universe key before each recursion, so the recursion
depth is bounded. -/
theorem resolveDependencies_isSome (reg : String → String → Option JsManifest)
    (U : Finset String) (hs : ∀ n v m, reg n v = some m → keyOfM m ∈ U)
    (opts : ResolveOptions) :
    ∀ (fuel : Nat) (m : JsManifest) (st : RState),
      (U \ st.memo).card < fuel → (resolveDependencies reg fuel m opts st).isSome := by
  intro fuel
  induction fuel with
  | zero => intro m st hcard; exact absurd hcard (Nat.not_lt_zero _)
  | succ fuel ih =>
    intro m st hcard
    show (resolveBody reg (fun mm stmm => resolveDependencies reg fuel mm opts stmm) m opts st).isSome
    unfold resolveBody
    by_cases he : (getManifestDependencies m opts).isEmpty
    · rw [if_pos he]; rfl
    · rw [if_neg he]
      unfold resolveLevel
      have hfold : ((levelSurvivors reg st (getManifestDependencies m opts)).foldl
          (resolveStep (fun mm stmm => resolveDependencies reg fuel mm opts stmm)
            (getManifestDependencies m opts).length)
          (some ([], stateAfterEach reg st (getManifestDependencies m opts), []))).isSome := by
        cases hsur : levelSurvivors reg st (getManifestDependencies m opts) with
        | nil => rfl
        | cons m1 rest =>
          have hm1 : m1 ∈ levelSurvivors reg st (getManifestDependencies m opts) := by
            rw [hsur]; exact List.mem_cons_self _ _
          have hm1' := mem_levelMans1 st _ m1 hm1
          have hkeyU : keyOfM m1 ∈ U := by
            rcases mem_levelMans reg _ m1 hm1'.1 with ⟨d, _, hd⟩
            exact hs _ _ _ hd
          have hkeyIn : keyOfM m1 ∈ memoAfterEach st (levelSurvivors reg st (getManifestDependencies m opts)) :=
            mem_memoAfterEach st _ m1 hm1
          have hsubM : st.memo ⊆ memoAfterEach st (levelSurvivors reg st (getManifestDependencies m opts)) :=
            memoAfterEach_superset st _
          have hP0 : (U \ (stateAfterEach reg st (getManifestDependencies m opts)).memo).card < fuel := by
            have hsd : U \ memoAfterEach st (levelSurvivors reg st (getManifestDependencies m opts)) ⊆
                U \ st.memo := Finset.sdiff_subset_sdiff subset_rfl hsubM
            have hss : U \ memoAfterEach st (levelSurvivors reg st (getManifestDependencies m opts)) ⊂
                U \ st.memo := by
              rw [Finset.ssubset_iff_of_subset hsd]
              exact ⟨keyOfM m1, Finset.mem_sdiff.2 ⟨hkeyU, hm1'.2⟩,
                fun hmem => (Finset.mem_sdiff.1 hmem).2 hkeyIn⟩
            have hlt := Finset.card_lt_card hss
            have : (U \ st.memo).card ≤ fuel := Nat.lt_succ_iff.1 hcard
            show (U \ memoAfterEach st (levelSurvivors reg st (getManifestDependencies m opts))).card < fuel
            omega
          exact foldl_resolveStep_isSome _ _ (resolveDependencies_mono reg opts fuel)
            (fun s => (U \ s).card < fuel)
            (fun s t hsub hp => lt_of_le_of_lt
              (Finset.card_le_card (Finset.sdiff_subset_sdiff subset_rfl hsub)) hp)
            (fun mm stx hp => ih mm stx hp) _ _ _ _ hP0
      rcases Option.isSome_iff_exists.1 hfold with ⟨r, hr⟩
      rw [hr]
      rfl

/-- The reduce never reads its `denom` argument (`1 / dependencies.length`
is only added under the never-taken `depth === 0` guard), so the fold result
is independent of it. -/
theorem foldl_resolveStep_denom
    (rec : JsManifest → RState → Option (List RPkg × RState × List TraceEv))
    (hmono : RecMono rec) (dA dB : Nat) :
    ∀ (l : List JsManifest) (res0 : List RPkg) (st0 : RState) (tr0 : List TraceEv),
      l.foldl (resolveStep rec dA) (some (res0, st0, tr0)) =
      l.foldl (resolveStep rec dB) (some (res0, st0, tr0)) := by
  intro l
  induction l with
  | nil => intro res0 st0 tr0; rfl
  | cons m rest ih =>
    intro res0 st0 tr0
    rw [List.foldl_cons, List.foldl_cons, resolveStep_some rec dA _ _ _ _ hmono,
      resolveStep_some rec dB _ _ _ _ hmono]
    cases h : rec m { st0 with depth := st0.depth + 1 } with
    | none =>
      exact (foldl_resolveStep_none rec dA rest).trans
        (foldl_resolveStep_none rec dB rest).symm
    | some r =>
      obtain ⟨childRes, stc, trc⟩ := r
      exact ih _ _ _

theorem mem_levelDeps1_intro (st : RState) (deps : List (String × String))
    (d : String × String) (h1 : d ∈ deps) (h2 : pkgKey d.1 d.2 ∉ st.memo) :
    d ∈ levelDeps1 st deps := by
  unfold levelDeps1
  exact List.mem_filter.2 ⟨h1, by simp only [decide_eq_true_eq]; exact h2⟩

theorem mem_levelMans_intro (reg : String → String → Option JsManifest)
    (deps1 : List (String × String)) (d : String × String) (m : JsManifest)
    (h1 : d ∈ deps1) (h2 : reg d.1 d.2 = some m) : m ∈ levelMans reg deps1 := by
  unfold levelMans
  exact List.mem_filterMap.2 ⟨d, h1, h2⟩

theorem mem_levelMans1_intro (st : RState) (mans : List JsManifest) (m : JsManifest)
    (h1 : m ∈ mans) (h2 : keyOfM m ∉ st.memo) : m ∈ levelMans1 st mans := by
  unfold levelMans1
  exact List.mem_filter.2 ⟨h1, by simp only [decide_eq_true_eq]; exact h2⟩

/-- The cycle registry is well formed. -/
theorem cycleReg_wf : WFreg cycleReg := by
  intro n v m h
  unfold cycleReg at h
  split_ifs at h with h1 h2
  · obtain ⟨rfl, rfl⟩ := h1
    injection h with h'
    subst h'
    exact ⟨rfl, by show (manifestA.dependencies.map Prod.fst).Nodup; decide⟩
  · obtain ⟨rfl, rfl⟩ := h2
    injection h with h'
    subst h'
    exact ⟨rfl, by show (manifestB.dependencies.map Prod.fst).Nodup; decide⟩

/-- The keys the cycle registry can produce lie in `cycleKeys`. -/
theorem cycleReg_support :
    ∀ n v m, cycleReg n v = some m → pkgKey m.name m.version ∈ cycleKeys := by
  intro n v m h
  unfold cycleReg at h
  split_ifs at h with h1 h2
  · injection h with h'; subst h'; decide
  · injection h with h'; subst h'; decide

/-! ### Claim theorems -/

/-- Claim C1: for every input manifest and options, the list returned by
`resolveDependencies` contains no two entries with the same
`(name, version)` pair.  Hypotheses reflect the JS environment: the
registry answers with the requested package name and JS dependency objects
have pairwise-distinct keys. -/
theorem spec_C1 (reg : String → String → Option JsManifest) (fuel : Nat)
    (manifest : JsManifest) (opts : ResolveOptions) (st : RState)
    (res : List RPkg) (st2 : RState) (tr : List TraceEv)
    (hreg : WFreg reg) (hwf : (manifest.dependencies.map Prod.fst).Nodup)
    (h : resolveDependencies reg fuel manifest opts st = some (res, st2, tr)) :
    (res.map (fun p => (p.name, p.version))).Nodup :=
  resolveDependencies_nodup reg opts hreg fuel manifest st res st2 tr hwf h

/-- Witness for C1: the cyclic two-package registry resolved from the empty
memo yields a duplicate-free list. -/
theorem spec_C1_witness :
    (([⟨"a", "1.0.0", true⟩, ⟨"b", "1.0.0", true⟩] : List RPkg).map
      (fun p => (p.name, p.version))).Nodup :=
  spec_C1 cycleReg 4 cycleRoot optsNone st0
    [⟨"a", "1.0.0", true⟩, ⟨"b", "1.0.0", true⟩]
    ⟨{"b@1.0.0", "a@1.0.0"}, 2, 0⟩
    [TraceEv.fetch "a" "1.0.0", TraceEv.log "Resolving dependencies: a@1.0.0" 0,
      TraceEv.fetch "b" "1.0.0", TraceEv.log "Resolving dependencies: b@1.0.0" 0]
    cycleReg_wf (by decide) rfl

/-- Claim C2: the resolver terminates on every dependency graph whose
registry image has finitely many `(name, version)` keys — in particular on
cyclic graphs — because the memo grows before each recursion; and resolving
the manifest `root → a → b → a` returns each of `a` and `b` exactly once. -/
theorem spec_C2 :
    (∀ (reg : String → String → Option JsManifest) (U : Finset String),
      (∀ n v m, reg n v = some m → pkgKey m.name m.version ∈ U) →
      ∀ (fuel : Nat) (manifest : JsManifest) (opts : ResolveOptions) (st : RState),
        (U \ st.memo).card < fuel →
        (resolveDependencies reg fuel manifest opts st).isSome) ∧
    (resolveDependencies cycleReg 4 cycleRoot optsNone st0).map (fun r => r.1) =
      some [⟨"a", "1.0.0", true⟩, ⟨"b", "1.0.0", true⟩] := by
  constructor
  · intro reg U hs fuel manifest opts st h
    exact resolveDependencies_isSome reg U hs opts fuel manifest st h
  · decide

/-- Witness for C2: the cyclic registry's support lies in `cycleKeys`, the
fuel bound holds from the empty memo, and the resolver therefore returns a
result on the cycle. -/
theorem spec_C2_witness :
    (∀ n v m, cycleReg n v = some m → pkgKey m.name m.version ∈ cycleKeys) ∧
    (cycleKeys \ st0.memo).card < 4 ∧
    (resolveDependencies cycleReg 4 cycleRoot optsNone st0).isSome :=
  ⟨cycleReg_support, by decide,
    spec_C2.1 cycleReg cycleKeys cycleReg_support 4 cycleRoot optsNone st0 (by decide)⟩

/-- Counterexample to C3 as stated: the specifier `"^1.2.3"` normalizes to
`"^1.2.3"` — the stripped string `"1.2.3"` is only used for the validity
test, and the raw specifier is what `getManifestDependencies` returns — so
the claimed output `"1.2.3"` is wrong. -/
theorem spec_C3_counterexample :
    getManifestDependencies ⟨"demo", "1.0.0", true, [("a", "^1.2.3")], [], [], []⟩ optsNone =
      [("a", "^1.2.3")] ∧
    getManifestDependencies ⟨"demo", "1.0.0", true, [("a", "^1.2.3")], [], [], []⟩ optsNone ≠
      [("a", "1.2.3")] := by
  exact ⟨by decide, by decide⟩

/-- Claim C3, amended: normalization never fails; every merged edge is
normalized per entry; when stripping the first `^`/`~` leaves a valid
concrete version the ORIGINAL specifier (prefix intact) is kept, otherwise
the coerced version, otherwise the sentinel `"latest"`; in particular
`"^1.2.3"` yields `"^1.2.3"`, `"~2.0"` yields `"2.0.0"` and an unparseable
string yields `"latest"`. -/
theorem spec_C3 :
    (∀ (m : JsManifest) (opts : ResolveOptions),
      getManifestDependencies m opts =
        (mergedDeps m opts).map (fun d => (d.1, normalizeSpec d.2))) ∧
    (∀ v : String,
      (semverValid (stripRange v) = true → normalizeSpec v = v) ∧
      (∀ c, semverValid (stripRange v) = false → semverCoerce (stripRange v) = some c →
        normalizeSpec v = c) ∧
      (semverValid (stripRange v) = false → semverCoerce (stripRange v) = none →
        normalizeSpec v = "latest")) ∧
    normalizeSpec "^1.2.3" = "^1.2.3" ∧
    normalizeSpec "~2.0" = "2.0.0" ∧
    normalizeSpec "not-a-version" = "latest" := by
  refine ⟨fun m opts => rfl, fun v => ⟨?_, ?_, ?_⟩, by decide, by decide, by decide⟩
  · intro h
    unfold normalizeSpec
    rw [if_pos h]
  · intro c h1 h2
    unfold normalizeSpec
    rw [if_neg (by simp [h1]), h2]
  · intro h1 h2
    unfold normalizeSpec
    rw [if_neg (by simp [h1]), h2]

/-- Witness for C3 (amended): the coercion branch at the concrete specifier
`"~2.0"`. -/
theorem spec_C3_witness :
    semverValid (stripRange "~2.0") = false ∧
    semverCoerce (stripRange "~2.0") = some "2.0.0" ∧
    normalizeSpec "~2.0" = "2.0.0" :=
  ⟨by decide, by decide, (spec_C3.2.1 "~2.0").2.1 "2.0.0" (by decide) (by decide)⟩

/-- Claim C4 is a code bug: `Object.assign(options, { depth: depth + 1 })`
mutates the shared options object before every child resolve, so the
`options.depth === 0` guard of the progress accounting is never true again
and `options.progress` never advances — here, resolving a root with two
depth-0 leaf edges reports fraction 0 on every logger call and finishes
with cumulative progress 0, not 1. -/
theorem spec_C4 :
    (resolveDependencies twoReg 3 twoRoot optsNone st0).map
        (fun r => (r.2.1.progress,
          r.2.2.filterMap (fun e =>
            match e with
            | TraceEv.log _ q => some q
            | TraceEv.fetch _ _ => none))) =
      some ((0 : ℚ), [(0 : ℚ), 0]) ∧
    (0 : ℚ) ≠ 1 := by
  exact ⟨by decide, by decide⟩

/-- Counterexample to C8 as stated: lodash `merge` mutates its first
argument, `manifest.dependencies`; with `--dev` enabled and a non-empty
`devDependencies` map the manifest is changed by
`getManifestDependencies`. -/
theorem spec_C8_counterexample :
    (getManifestDependenciesMut ⟨"p", "1.0.0", false, [], [("x", "2.0.0")], [], []⟩
        ⟨true, false, false⟩).2 ≠
      ⟨"p", "1.0.0", false, [], [("x", "2.0.0")], [], []⟩ := by
  decide

/-- Claim C8, amended: `getManifestDependencies` leaves every manifest field
except `dependencies` unchanged, and rewrites `dependencies` to the merged
map — so the input manifest is fully unchanged exactly when the merge adds
nothing, in particular whenever dev, peer and optional resolution are all
disabled. -/
theorem spec_C8 (m : JsManifest) (opts : ResolveOptions) :
    ((getManifestDependenciesMut m opts).2.name = m.name ∧
     (getManifestDependenciesMut m opts).2.version = m.version ∧
     (getManifestDependenciesMut m opts).2.isLatest = m.isLatest ∧
     (getManifestDependenciesMut m opts).2.devDependencies = m.devDependencies ∧
     (getManifestDependenciesMut m opts).2.peerDependencies = m.peerDependencies ∧
     (getManifestDependenciesMut m opts).2.optionalDependencies = m.optionalDependencies ∧
     (getManifestDependenciesMut m opts).2.dependencies = mergedDeps m opts) ∧
    (opts.dev = false → opts.peer = false → opts.optional = false →
      (getManifestDependenciesMut m opts).2 = m) := by
  refine ⟨⟨rfl, rfl, rfl, rfl, rfl, rfl, rfl⟩, ?_⟩
  intro h1 h2 h3
  show ({ m with dependencies := mergedDeps m opts } : JsManifest) = m
  have hd : mergedDeps m opts = m.dependencies := by
    unfold mergedDeps
    rw [h1, h2, h3]
    simp only [if_neg (Bool.false_ne_true), mergeAssoc]
  rw [hd]

/-- Witness for C8 (amended): with all flags off a concrete manifest passes
through unchanged. -/
theorem spec_C8_witness :
    (getManifestDependenciesMut
        ⟨"p", "1.0.0", false, [("a", "1.0.0")], [("x", "2.0.0")], [], []⟩ optsNone).2 =
      ⟨"p", "1.0.0", false, [("a", "1.0.0")], [("x", "2.0.0")], [], []⟩ :=
  (spec_C8 ⟨"p", "1.0.0", false, [("a", "1.0.0")], [("x", "2.0.0")], [], []⟩ optsNone).2
    rfl rfl rfl

/-- Claim C10: a file path whose basename does not end in `.tgz` makes
`publishTarball` reject with an error naming the tgz extension, before any
publish command is formed. -/
theorem spec_C10 (filePath : String) (force : Bool)
    (h : listEndsWith ".tgz".data (basenameStr filePath).data = false) :
    publishTarballPlan filePath force =
      .error ("The file \"" ++ basenameStr filePath ++ "\" are not with tgz extension") := by
  unfold publishTarballPlan
  rw [if_pos (by simp [h])]

/-- Witness for C10: a concrete non-tgz path. -/
theorem spec_C10_witness :
    publishTarballPlan "packages/foo.txt" false =
      .error ("The file \"" ++ basenameStr "packages/foo.txt" ++ "\" are not with tgz extension") :=
  spec_C10 "packages/foo.txt" false (by decide)

/-- Claim C7: `getPackageManifest`'s registry error handling, in order of
precedence: a successful manifest passes through; a version-target mismatch
carrying a registry-supplied latest tag retries with that latest tag; a
not-found error retries once with the unqualified name when the request was
not for `"latest"`, and rejects with a NotFound error naming the package
when it was; every other error propagates unchanged; finally `isLatest` is
attached from the packument (unconditionally `true` for `"latest"`
requests). -/
theorem spec_C7 (pac : PacoteApi) (n v : String) :
    (∀ m, pac.manifest (n ++ "@" ++ v) = .ok m →
      fetchManifestWithFallback pac n v = .ok m) ∧
    (∀ latest, pac.manifest (n ++ "@" ++ v) = .error (.etarget latest) →
      fetchManifestWithFallback pac n v = pac.manifest (n ++ "@" ++ latest)) ∧
    (pac.manifest (n ++ "@" ++ v) = .error .e404 → v ≠ "latest" →
      fetchManifestWithFallback pac n v = pac.manifest n) ∧
    (pac.manifest (n ++ "@" ++ v) = .error .e404 → v = "latest" →
      fetchManifestWithFallback pac n v =
        .error (.notFound (n ++ "@" ++ v ++ " not found"))) ∧
    (∀ c, pac.manifest (n ++ "@" ++ v) = .error (.other c) →
      getPackageManifest pac n v = .error (.other c)) ∧
    (∀ m p, v ≠ "latest" → fetchManifestWithFallback pac n v = .ok m →
      pac.packument n = .ok p →
      getPackageManifest pac n v = .ok { m with isLatest := decide (p.latest = m.version) }) ∧
    (∀ m, v = "latest" → fetchManifestWithFallback pac n v = .ok m →
      getPackageManifest pac n v = .ok { m with isLatest := true }) := by
  refine ⟨?_, ?_, ?_, ?_, ?_, ?_, ?_⟩
  · intro m h
    unfold fetchManifestWithFallback
    rw [h]
  · intro latest h
    unfold fetchManifestWithFallback
    rw [h]
  · intro h hv
    unfold fetchManifestWithFallback
    rw [h, if_pos hv]
  · intro h hv
    unfold fetchManifestWithFallback
    rw [h, if_neg (by simp [hv])]
  · intro c h
    unfold getPackageManifest
    have hf : fetchManifestWithFallback pac n v = .error (.other c) := by
      unfold fetchManifestWithFallback
      rw [h]
    rw [hf]
    rfl
  · intro m p hv hf hp
    unfold getPackageManifest
    rw [hf]
    show (if v ≠ "latest" then _ else _ : Except PacErr JsManifest) = _
    rw [if_pos hv, hp]
    rfl
  · intro m hv hf
    unfold getPackageManifest
    rw [hf]
    show (if v ≠ "latest" then _ else _ : Except PacErr JsManifest) = _
    rw [if_neg (by simp [hv])]
    rfl

/-- Witness for C7: the concrete pacote collaborator `pacEx` exercises the
target-mismatch retry (`p@1.0.0` redirected to the registry latest
`2.0.0`) and the `isLatest` attachment from the packument. -/
theorem spec_C7_witness :
    fetchManifestWithFallback pacEx "p" "1.0.0" = pacEx.manifest "p@2.0.0" ∧
    getPackageManifest pacEx "p" "1.0.0" =
      .ok { pManifest with isLatest := decide ((⟨"2.0.0"⟩ : Packument).latest = pManifest.version) } :=
  ⟨(spec_C7 pacEx "p" "1.0.0").2.1 "2.0.0" rfl,
    (spec_C7 pacEx "p" "1.0.0").2.2.2.2.2.1 pManifest ⟨"2.0.0"⟩ (by decide) rfl rfl⟩

/-- Claim C5: once a `(name, version)` key is in the resolved-packages memo,
no fetch for that pair is issued and no entry with that pair is emitted in
the same run; and resolving the same manifest a second time in the same run
(memo kept) returns an empty list. -/
theorem spec_C5 :
    (∀ (reg : String → String → Option JsManifest) (fuel : Nat) (manifest : JsManifest)
      (opts : ResolveOptions) (st : RState) (res : List RPkg) (st2 : RState)
      (tr : List TraceEv) (n v : String),
      pkgKey n v ∈ st.memo →
      resolveDependencies reg fuel manifest opts st = some (res, st2, tr) →
      TraceEv.fetch n v ∉ tr ∧ ∀ p ∈ res, ¬ (p.name = n ∧ p.version = v)) ∧
    (∀ (reg : String → String → Option JsManifest) (fuel1 fuel2 : Nat)
      (manifest : JsManifest) (opts : ResolveOptions) (st : RState)
      (res1 : List RPkg) (st1 : RState) (tr1 : List TraceEv)
      (res2 : List RPkg) (st2 : RState) (tr2 : List TraceEv),
      resolveDependencies reg fuel1 manifest opts st = some (res1, st1, tr1) →
      resolveDependencies reg fuel2 manifest opts st1 = some (res2, st2, tr2) →
      res2 = []) := by
  constructor
  · intro reg fuel manifest opts st res st2 tr n v hk h
    have hf := resolveDependencies_fresh reg opts fuel manifest st res st2 tr h
    constructor
    · intro htr
      exact hf.2 n v htr hk
    · rintro p hp ⟨hn, hv⟩
      have hfr := (hf.1 p hp).1
      unfold keyOf at hfr
      rw [hn, hv] at hfr
      exact hfr hk
  · intro reg fuel1 fuel2 manifest opts st res1 st1 tr1 res2 st2 tr2 h1 h2
    cases fuel1 with
    | zero => exact absurd h1 (by simp [resolveDependencies])
    | succ fuel1 =>
      cases fuel2 with
      | zero => exact absurd h2 (by simp [resolveDependencies])
      | succ fuel2 =>
        have hmono1 : st.memo ⊆ st1.memo :=
          (resolveDependencies_mono reg opts (fuel1 + 1) manifest st _ h1).1
        replace h2 : resolveBody reg
            (fun mm stmm => resolveDependencies reg fuel2 mm opts stmm)
            manifest opts st1 = some (res2, st2, tr2) := h2
        unfold resolveBody at h2
        by_cases he : (getManifestDependencies manifest opts).isEmpty
        · rw [if_pos he] at h2
          simp only [Option.some_inj, Prod.mk.injEq] at h2
          exact h2.1.symm
        · rw [if_neg he] at h2
          unfold resolveLevel at h2
          -- facts about run 1
          replace h1 : resolveBody reg
              (fun mm stmm => resolveDependencies reg fuel1 mm opts stmm)
              manifest opts st = some (res1, st1, tr1) := h1
          unfold resolveBody at h1
          rw [if_neg he] at h1
          unfold resolveLevel at h1
          simp only [Option.map_eq_some'] at h1
          obtain ⟨r, hr1, heq⟩ := h1
          obtain ⟨res1x, st1x, tr1x⟩ := r
          simp only [Prod.mk.injEq] at heq
          obtain ⟨-, hst1e, -⟩ := heq
          subst hst1e
          have hAE : (stateAfterEach reg st (getManifestDependencies manifest opts)).memo ⊆
              st1x.memo :=
            (foldl_resolveStep_mono _ _ (resolveDependencies_mono reg opts fuel1)
              _ _ _ _ _ _ _ hr1).1
          -- the second run finds no surviving manifest
          have hsur : levelSurvivors reg st1x (getManifestDependencies manifest opts) = [] := by
            rw [List.eq_nil_iff_forall_not_mem]
            intro m' hm'
            have hm2 := mem_levelMans1 st1x _ m' hm'
            rcases mem_levelMans reg _ m' hm2.1 with ⟨d, hd, hregd⟩
            have hd1 := mem_levelDeps1 st1x _ d hd
            have hdSt : pkgKey d.1 d.2 ∉ st.memo := fun hmem => hd1.2 (hmono1 hmem)
            have hdIn1 : d ∈ levelDeps1 st (getManifestDependencies manifest opts) :=
              mem_levelDeps1_intro st _ d hd1.1 hdSt
            have hmIn1 : m' ∈ levelMans reg (levelDeps1 st (getManifestDependencies manifest opts)) :=
              mem_levelMans_intro reg _ d m' hdIn1 hregd
            by_cases hkm : keyOfM m' ∈ st.memo
            · exact hm2.2 (hmono1 hkm)
            · have hmSur : m' ∈ levelSurvivors reg st (getManifestDependencies manifest opts) :=
                mem_levelMans1_intro st _ m' hmIn1 hkm
              have hkIn : keyOfM m' ∈
                  memoAfterEach st (levelSurvivors reg st (getManifestDependencies manifest opts)) :=
                mem_memoAfterEach st _ m' hmSur
              exact hm2.2 (hAE hkIn)
          rw [hsur] at h2
          simp only [List.foldl_nil, Option.map_some', Option.some_inj, Prod.mk.injEq] at h2
          exact h2.1.symm

/-- Witness for C5: running the two-leaf example a second time from the
state its first run produced yields the empty list, and no fetch for the
memoized `x@1.0.0` is issued in the (empty-traced) second run. -/
theorem spec_C5_witness :
    resolveDependencies twoReg 3 twoRoot optsNone st0 = some (twoRunRes, twoRunSt, twoRunTr) ∧
    resolveDependencies twoReg 3 twoRoot optsNone twoRunSt = some ([], twoRunSt, []) ∧
    ([] : List RPkg) = [] ∧
    TraceEv.fetch "x" "1.0.0" ∉ ([] : List TraceEv) :=
  ⟨rfl, rfl,
    spec_C5.2 twoReg 3 3 twoRoot optsNone st0 twoRunRes twoRunSt twoRunTr
      [] twoRunSt [] rfl rfl,
    (spec_C5.1 twoReg 3 twoRoot optsNone twoRunSt [] twoRunSt [] "x" "1.0.0"
      (by decide) rfl).1⟩

/-- A dependency edge whose fetch fails contributes nothing to the
surviving manifests of a level: the filter pipeline drops it whether or not
it is pre-filtered. -/
theorem levelSurvivors_failed_edge (reg : String → String → Option JsManifest) (st : RState)
    (bn bv : String) (pre post : List (String × String)) (hfail : reg bn bv = none) :
    levelSurvivors reg st (pre ++ (bn, bv) :: post) =
    levelSurvivors reg st (pre ++ post) := by
  unfold levelSurvivors levelMans levelDeps1
  rw [List.filter_append, List.filter_append, List.filter_cons]
  by_cases hk : pkgKey (bn, bv).1 (bn, bv).2 ∉ st.memo
  · rw [if_pos (by simp only [decide_eq_true_eq]; exact hk)]
    have hmid : List.filterMap (fun d : String × String => reg d.1 d.2)
        ((bn, bv) :: List.filter (fun d => decide (pkgKey d.1 d.2 ∉ st.memo)) post) =
        List.filterMap (fun d : String × String => reg d.1 d.2)
          (List.filter (fun d => decide (pkgKey d.1 d.2 ∉ st.memo)) post) :=
      List.filterMap_cons_none hfail
    rw [List.filterMap_append, List.filterMap_append, hmid]
  · rw [if_neg (by simp only [decide_eq_true_eq]; exact hk)]

/-- The projection of a resolve level to (result, state) only depends on the
surviving manifests: the per-level denominator and the trace prefix do not
influence it. -/
theorem resolveLevel_congr (reg : String → String → Option JsManifest)
    (rec : JsManifest → RState → Option (List RPkg × RState × List TraceEv))
    (mA mB : JsManifest) (opts : ResolveOptions) (st : RState) (hmono : RecMono rec)
    (hsur : levelSurvivors reg st (getManifestDependencies mA opts) =
      levelSurvivors reg st (getManifestDependencies mB opts)) :
    (resolveLevel reg rec mA opts st).map (fun r => (r.1, r.2.1)) =
    (resolveLevel reg rec mB opts st).map (fun r => (r.1, r.2.1)) := by
  unfold resolveLevel stateAfterEach
  rw [hsur, foldl_resolveStep_denom rec hmono (getManifestDependencies mA opts).length
    (getManifestDependencies mB opts).length]
  cases hF : (levelSurvivors reg st (getManifestDependencies mB opts)).foldl
      (resolveStep rec (getManifestDependencies mB opts).length)
      (some ([], { st with
        memo := memoAfterEach st (levelSurvivors reg st (getManifestDependencies mB opts)) }, [])) with
  | none => rfl
  | some r => rfl

/-- Claim C6: when fetching one dependency edge fails, the resolver catches
the failure, omits that edge and its subtree, and produces exactly the
result and state it would produce had the edge not been declared at all —
in particular all sibling subtrees are kept and the call does not reject. -/
theorem spec_C6 (reg : String → String → Option JsManifest) (fuel : Nat)
    (mA mB : JsManifest) (opts : ResolveOptions) (st : RState)
    (bn bv : String) (pre post : List (String × String))
    (hA : mergedDeps mA opts = pre ++ (bn, bv) :: post)
    (hB : mergedDeps mB opts = pre ++ post)
    (hfail : reg bn (normalizeSpec bv) = none) :
    (resolveDependencies reg fuel mA opts st).map (fun r => (r.1, r.2.1)) =
    (resolveDependencies reg fuel mB opts st).map (fun r => (r.1, r.2.1)) := by
  have hdA : getManifestDependencies mA opts =
      pre.map (fun d => (d.1, normalizeSpec d.2)) ++ (bn, normalizeSpec bv) ::
        post.map (fun d => (d.1, normalizeSpec d.2)) := by
    unfold getManifestDependencies
    rw [hA, List.map_append, List.map_cons]
  have hdB : getManifestDependencies mB opts =
      pre.map (fun d => (d.1, normalizeSpec d.2)) ++
        post.map (fun d => (d.1, normalizeSpec d.2)) := by
    unfold getManifestDependencies
    rw [hB, List.map_append]
  have hsurEq : levelSurvivors reg st (getManifestDependencies mA opts) =
      levelSurvivors reg st (getManifestDependencies mB opts) := by
    rw [hdA, hdB]
    exact levelSurvivors_failed_edge reg st bn (normalizeSpec bv) _ _ hfail
  have heA : (getManifestDependencies mA opts).isEmpty = false := by
    rw [hdA]
    cases pre.map (fun d => (d.1, normalizeSpec d.2)) <;> rfl
  cases fuel with
  | zero => rfl
  | succ fuel =>
    show (resolveBody reg (fun mm stmm => resolveDependencies reg fuel mm opts stmm)
        mA opts st).map (fun r => (r.1, r.2.1)) =
      (resolveBody reg (fun mm stmm => resolveDependencies reg fuel mm opts stmm)
        mB opts st).map (fun r => (r.1, r.2.1))
    unfold resolveBody
    by_cases heB : (getManifestDependencies mB opts).isEmpty
    · rw [if_neg (by simp [heA]), if_pos heB]
      have hsurA : levelSurvivors reg st (getManifestDependencies mA opts) = [] := by
        rw [hsurEq, List.isEmpty_iff.1 heB]
        rfl
      unfold resolveLevel
      rw [hsurA]
      have hstA : stateAfterEach reg st (getManifestDependencies mA opts) = st := by
        unfold stateAfterEach
        rw [hsurA]
        rfl
      show some (([] : List RPkg), stateAfterEach reg st (getManifestDependencies mA opts)) =
        some ([], st)
      rw [hstA]
    · rw [if_neg (by simp [heA]), if_neg heB]
      exact resolveLevel_congr reg _ mA mB opts st
        (resolveDependencies_mono reg opts fuel) hsurEq

/-- Witness for C6: under the two-leaf registry, a root declaring
`x, b, y` (the fetch of `b` fails) resolves to the same result and state as
the root declaring only `x, y`. -/
theorem spec_C6_witness :
    (resolveDependencies twoReg 3 mixedRoot optsNone st0).map (fun r => (r.1, r.2.1)) =
    (resolveDependencies twoReg 3 twoRoot optsNone st0).map (fun r => (r.1, r.2.1)) :=
  spec_C6 twoReg 3 mixedRoot twoRoot optsNone st0 "b" "1.0.0"
    [("x", "1.0.0")] [("y", "1.0.0")] rfl rfl (by decide)

/-! ### String lemmas for the tarball filename round trip -/

theorem listIsPrefix_iff : ∀ (p s : List Char), listIsPrefix p s = true ↔ p <+: s := by
  intro p
  induction p with
  | nil => intro s; simp [listIsPrefix]
  | cons a p ih =>
    intro s
    cases s with
    | nil => simp [listIsPrefix]
    | cons b t =>
      simp only [listIsPrefix, Bool.and_eq_true, decide_eq_true_eq, ih,
        List.cons_prefix_cons]

theorem listContains_iff : ∀ (s p : List Char), listContains p s = true ↔ p <:+: s := by
  intro s
  induction s with
  | nil =>
    intro p
    show listIsPrefix p [] = true ↔ _
    rw [listIsPrefix_iff, List.prefix_nil, List.infix_nil]
  | cons c t ih =>
    intro p
    show (listIsPrefix p (c :: t) || listContains p t) = true ↔ _
    rw [Bool.or_eq_true, listIsPrefix_iff, ih, List.infix_cons_iff]

theorem listContains_false (p s : List Char) (h : ¬ (p <:+: s)) :
    listContains p s = false := by
  rw [← Bool.not_eq_true, listContains_iff]
  exact h

theorem listContains_append_self (p A : List Char) :
    listContains p (A ++ p) = true := by
  rw [listContains_iff]
  exact ⟨A, [], by rw [List.append_nil]⟩

theorem listReplaceFirst_no_occurrence (pat rep : List Char) :
    ∀ s : List Char, ¬ (pat <:+: s) → listReplaceFirst pat rep s = s := by
  intro s
  induction s with
  | nil => intro _; rfl
  | cons c t ih =>
    intro h
    have h1 : ¬ (listIsPrefix pat (c :: t) = true) := by
      rw [listIsPrefix_iff]
      exact fun hp => h (List.infix_cons_iff.2 (Or.inl hp))
    have h2 : ¬ (pat <:+: t) := fun hinf => h (List.infix_cons_iff.2 (Or.inr hinf))
    show (if listIsPrefix pat (c :: t) then _ else c :: listReplaceFirst pat rep t) = _
    rw [if_neg h1, ih h2]

theorem listReplaceFirst_append_end (pat rep : List Char) (hne : pat ≠ []) :
    ∀ A : List Char, (∀ a2 : List Char, a2 <:+ A → a2 ≠ [] → ¬ (pat <+: (a2 ++ pat))) →
      listReplaceFirst pat rep (A ++ pat) = A ++ rep := by
  intro A
  induction A with
  | nil =>
    intro _
    cases pat with
    | nil => exact absurd rfl hne
    | cons p0 pt =>
      show (if listIsPrefix (p0 :: pt) (p0 :: pt) then
          rep ++ (p0 :: pt).drop (p0 :: pt).length else _) = _
      rw [if_pos (by rw [listIsPrefix_iff]), List.drop_length, List.append_nil]
      rfl
  | cons a A' ih =>
    intro h
    have hnp : ¬ (pat <+: ((a :: A') ++ pat)) :=
      h (a :: A') List.suffix_rfl (by simp)
    show (if listIsPrefix pat (a :: (A' ++ pat)) then _
        else a :: listReplaceFirst pat rep (A' ++ pat)) = _
    rw [if_neg (by rw [listIsPrefix_iff]; exact hnp),
      ih (fun a2 ha2 hne2 => h a2 (ha2.trans (List.suffix_cons a A')) hne2)]
    rfl

/-- The `-latest.tgz` marker cannot occur inside `-version.tgz` when the
version starts with a digit and contains no dash. -/
theorem noLatest_infix_tail (version : List Char)
    (hvh : ∀ c, version.head? = some c → c.isDigit = true)
    (hvd : '-' ∉ version) (hvne : version ≠ []) :
    ¬ ("-latest.tgz".data <:+: ('-' :: version ++ ".tgz".data)) := by
  intro hinf
  rcases List.infix_cons_iff.1 hinf with hpre | hinf
  · obtain ⟨d0, vt, rfl⟩ : ∃ d0 vt, version = d0 :: vt := by
      cases version with
      | nil => exact absurd rfl hvne
      | cons d0 vt => exact ⟨d0, vt, rfl⟩
    have hd0 : d0.isDigit = true := hvh d0 rfl
    obtain ⟨t, ht⟩ := hpre
    have h1 : (("-latest.tgz".data) ++ t).get? 1 = some 'l' := rfl
    rw [ht] at h1
    have h2 : (some d0 : Option Char) = some 'l' := h1
    rw [Option.some_inj.1 h2] at hd0
    exact absurd hd0 (by decide)
  · obtain ⟨t1, t2, heq⟩ := hinf
    rw [List.append_assoc] at heq
    rcases List.append_eq_append_iff.1 heq with ⟨c, hc1, hc2⟩ | ⟨c, hc1, hc2⟩
    · rcases List.append_eq_append_iff.1 hc2 with ⟨e, he1, he2⟩ | ⟨e, he1, he2⟩
      · -- the whole marker sits inside the version: it contains a dash
        refine hvd ?_
        rw [hc1, he1]
        refine List.mem_append.2 (Or.inr (List.mem_append.2 (Or.inl ?_)))
        decide
      · -- the marker straddles version and ".tgz": its nonempty prefix part
        -- ends inside the version, so the version contains a dash
        cases c with
        | nil =>
          -- then ".tgz" would contain the whole marker: too short
          have he1' : e = "-latest.tgz".data := by
            rw [he1]
            rfl
          have hlen := congrArg List.length he2
          rw [he1', List.length_append] at hlen
          have hlen' : 4 = 11 + t2.length := hlen
          omega
        | cons x c' =>
          refine hvd ?_
          have hx : x = '-' := by
            have hh := congrArg List.head? he1
            rw [show (("-latest.tgz".data).head?) = some '-' from rfl] at hh
            rw [show (((x :: c') ++ e).head?) = some x from rfl] at hh
            exact (Option.some_inj.1 hh).symm
          have hmem : ('-') ∈ (x :: c') := by
            rw [← hx]
            exact List.mem_cons_self x c'
          rw [hc1]
          exact List.mem_append.2 (Or.inr hmem)
    · have hlen := congrArg List.length hc2
      rw [List.length_append, List.length_append] at hlen
      have hlen' : 4 = c.length + (11 + t2.length) := hlen
      omega

/-- The `-latest.tgz` marker does not occur in `{encoded-name}-{version}.tgz`
when it does not occur in the encoded name, the version starts with a digit
and the version has no dash: a straddling occurrence is impossible because
the only dash of the marker is its head. -/
theorem noLatest_infix_full (nameE version : List Char)
    (hn : ¬ ("-latest.tgz".data <:+: nameE))
    (hvh : ∀ c, version.head? = some c → c.isDigit = true)
    (hvd : '-' ∉ version) (hvne : version ≠ []) :
    ¬ ("-latest.tgz".data <:+: (nameE ++ ('-' :: version ++ ".tgz".data))) := by
  intro hinf
  obtain ⟨t1, t2, heq⟩ := hinf
  rw [List.append_assoc] at heq
  rcases List.append_eq_append_iff.1 heq with ⟨c, hc1, hc2⟩ | ⟨c, hc1, hc2⟩
  · rcases List.append_eq_append_iff.1 hc2 with ⟨e, he1, he2⟩ | ⟨e, he1, he2⟩
    · exact hn ⟨t1, e, by rw [List.append_assoc, ← he1, ← hc1]⟩
    · cases c with
      | nil =>
        have he1' : e = "-latest.tgz".data := by
          rw [he1]
          rfl
        refine noLatest_infix_tail version hvh hvd hvne ⟨[], t2, ?_⟩
        rw [List.nil_append, ← he1', ← he2]
      | cons x c' =>
        cases e with
        | nil =>
          exact hn ⟨t1, [], by rw [List.append_nil, he1, List.append_nil, ← hc1]⟩
        | cons y e' =>
          have hy' : (some '-' : Option Char) = some y := congrArg List.head? he2
          have hy : y = '-' := (Option.some_inj.1 hy').symm
          have hsuf2 : (y :: e') <:+ ('-' :: "latest.tgz".data) := ⟨x :: c', he1.symm⟩
          rcases List.suffix_cons_iff.1 hsuf2 with heqp | hsuf3
          · have l1 := congrArg List.length he1
            rw [List.length_append] at l1
            have l1' : 11 = (x :: c').length + (y :: e').length := l1
            have l2 : (y :: e').length = 11 := by rw [heqp]; rfl
            simp only [List.length_cons] at l1' l2
            omega
          · have hmem : y ∈ "latest.tgz".data := hsuf3.subset (List.mem_cons_self y e')
            rw [hy] at hmem
            exact absurd hmem (by decide)
  · refine noLatest_infix_tail version hvh hvd hvne ⟨c, t2, ?_⟩
    rw [List.append_assoc]
    exact hc2.symm

theorem listContains_of_not_mem (c : Char) : ∀ l : List Char, c ∉ l → l.contains c = false := by
  intro l h
  rw [← Bool.not_eq_true]
  show ¬ l.elem c = true
  intro hc
  exact h (List.elem_iff.1 hc)

theorem afterLastChar_append (c : Char) (F : List Char) (hF : c ∉ F) :
    ∀ D : List Char, afterLastChar c (D ++ c :: F) = F := by
  intro D
  induction D with
  | nil =>
    show (if F.contains c then _ else if c = c then F else c :: F) = F
    rw [listContains_of_not_mem c F hF]
    simp
  | cons d D' ih =>
    show (if ((D' ++ c :: F).contains c) then afterLastChar c (D' ++ c :: F) else _) = F
    rw [if_pos ?_, ih]
    show (D' ++ c :: F).elem c = true
    exact List.elem_iff.2 (List.mem_append.2 (Or.inr (List.mem_cons_self c F)))

theorem beforeLastChar_none (c : Char) : ∀ l : List Char, c ∉ l → beforeLastChar c l = none := by
  intro l
  induction l with
  | nil => intro _; rfl
  | cons x t ih =>
    intro h
    show (match beforeLastChar c t with
      | some r => some (x :: r)
      | none => if x = c then some [] else none) = none
    rw [ih (List.not_mem_of_not_mem_cons h),
      if_neg (Ne.symm (List.ne_of_not_mem_cons h))]

theorem beforeLastChar_append (c : Char) (B : List Char) (hB : c ∉ B) :
    ∀ A : List Char, beforeLastChar c (A ++ c :: B) = some A := by
  intro A
  induction A with
  | nil =>
    show (match beforeLastChar c B with
      | some r => some (c :: r)
      | none => if c = c then some [] else none) = some []
    rw [beforeLastChar_none c B hB, if_pos rfl]
  | cons a A' ih =>
    show (match beforeLastChar c (A' ++ c :: B) with
      | some r => some (a :: r)
      | none => if a = c then some [] else none) = some (a :: A')
    rw [ih]

theorem lastPosOf_append_tgz : ∀ version : List Char,
    lastPosOf ['t', 'g', 'z'] (version ++ ".tgz".data) = some (version.length + 1) := by
  intro version
  induction version with
  | nil => rfl
  | cons v vt ih =>
    show (match lastPosOf ['t', 'g', 'z'] (vt ++ ".tgz".data) with
      | some i => some (i + 1)
      | none => if listIsPrefix ['t', 'g', 'z'] (v :: (vt ++ ".tgz".data)) then some 0
        else none) = some ((v :: vt).length + 1)
    rw [ih]
    rfl

theorem matchVersionGroup_skip (s : List Char) :
    ∀ A : List Char, (∀ c ∈ A, c.isDigit = false) →
      matchVersionGroup (A ++ s) = matchVersionGroup s := by
  intro A
  induction A with
  | nil => intro _; rfl
  | cons a A' ih =>
    intro h
    show (if a.isDigit then _ else matchVersionGroup (A' ++ s)) = _
    rw [if_neg (by rw [h a (List.mem_cons_self a A')]; exact Bool.false_ne_true),
      ih (fun x hx => h x (List.mem_cons_of_mem a hx))]

theorem matchVersionGroup_main (version : List Char) (hvne : version ≠ [])
    (hvh : ∀ c, version.head? = some c → c.isDigit = true) :
    matchVersionGroup (version ++ ".tgz".data) = some version := by
  obtain ⟨d0, vt, rfl⟩ : ∃ d0 vt, version = d0 :: vt := by
    cases version with
    | nil => exact absurd rfl hvne
    | cons d0 vt => exact ⟨d0, vt, rfl⟩
  have hd0 : d0.isDigit = true := hvh d0 rfl
  have hlast : lastPosOf ['t', 'g', 'z'] (d0 :: (vt ++ ".tgz".data)) =
      some (vt.length + 2) := lastPosOf_append_tgz (d0 :: vt)
  show (if d0.isDigit then
      match lastPosOf ['t', 'g', 'z'] (d0 :: (vt ++ ".tgz".data)) with
      | some i => if 2 ≤ i then some ((d0 :: (vt ++ ".tgz".data)).take (i - 1))
        else matchVersionGroup (vt ++ ".tgz".data)
      | none => matchVersionGroup (vt ++ ".tgz".data)
    else matchVersionGroup (vt ++ ".tgz".data)) = some (d0 :: vt)
  rw [hd0, if_pos rfl, hlast]
  show (if 2 ≤ vt.length + 2 then some ((d0 :: (vt ++ ".tgz".data)).take (vt.length + 2 - 1))
    else matchVersionGroup (vt ++ ".tgz".data)) = some (d0 :: vt)
  rw [if_pos (by omega)]
  show some ((d0 :: (vt ++ ".tgz".data)).take (vt.length + 1)) = some (d0 :: vt)
  rw [List.take_succ_cons, List.take_left]

theorem replaceFirstChar_not_mem (c d : Char) : ∀ l : List Char, c ∉ l →
    replaceFirstChar c d l = l := by
  intro l
  induction l with
  | nil => intro _; rfl
  | cons x t ih =>
    intro h
    show (if x = c then d :: t else x :: replaceFirstChar c d t) = x :: t
    rw [if_neg (Ne.symm (List.ne_of_not_mem_cons h)),
      ih (List.not_mem_of_not_mem_cons h)]

theorem replaceFirstChar_append (c d : Char) (B : List Char) :
    ∀ A : List Char, c ∉ A → replaceFirstChar c d (A ++ c :: B) = A ++ d :: B := by
  intro A
  induction A with
  | nil =>
    intro _
    show (if c = c then d :: B else _) = d :: B
    rw [if_pos rfl]
  | cons a A' ih =>
    intro h
    show (if a = c then _ else a :: replaceFirstChar c d (A' ++ c :: B)) = a :: (A' ++ d :: B)
    rw [if_neg (Ne.symm (List.ne_of_not_mem_cons h)),
      ih (List.not_mem_of_not_mem_cons h)]

theorem listIsPrefix_append_self : ∀ p t : List Char, listIsPrefix p (p ++ t) = true := by
  intro p
  induction p with
  | nil => intro t; rfl
  | cons a p ih =>
    intro t
    show (decide (a = a) && listIsPrefix p (p ++ t)) = true
    rw [ih, decide_eq_true rfl, Bool.and_self]

theorem listEndsWith_append_self (p A : List Char) : listEndsWith p (A ++ p) = true := by
  show listIsPrefix p.reverse (A ++ p).reverse = true
  rw [List.reverse_append]
  exact listIsPrefix_append_self p.reverse A.reverse

theorem marker_no_overlap (A : List Char) (hA : ¬ ("-latest.tgz".data <:+: A)) :
    ∀ a2 : List Char, a2 <:+ A → a2 ≠ [] →
      ¬ ("-latest.tgz".data <+: (a2 ++ "-latest.tgz".data)) := by
  intro a2 hsuf hne hpre
  have htake : "-latest.tgz".data = (a2 ++ "-latest.tgz".data).take 11 :=
    List.prefix_iff_eq_take.1 hpre
  rcases Nat.lt_or_ge a2.length 11 with hlt | hge
  · have h0 : 0 < a2.length := List.length_pos.2 hne
    have htk : ("-latest.tgz".data).take a2.length = a2 := by
      conv_lhs => rw [htake]
      rw [List.take_take, Nat.min_eq_left (Nat.le_of_lt hlt)]
      exact List.take_left a2 "-latest.tgz".data
    have hdec : ∀ k, k < 11 → 1 ≤ k →
        ¬ ("-latest.tgz".data <+: (("-latest.tgz".data).take k ++ "-latest.tgz".data)) := by
      decide
    exact hdec a2.length hlt h0 (by rw [htk]; exact hpre)
  · rw [List.take_append_of_le_length hge] at htake
    have h1 : ("-latest.tgz".data) <+: a2 := by
      rw [htake]
      exact List.take_prefix 11 a2
    exact hA (h1.isInfix.trans hsuf.isInfix)

theorem path_data (dest name version : String) (isLatest : Bool) :
    (downloadPackageTarballPath dest name version isLatest).data =
      dest.data ++ '/' :: ((replaceFirstChar '/' '-' name.data ++ ('-' :: version.data)) ++
        (if isLatest then "-latest.tgz" else ".tgz").data) := by
  cases isLatest
  · show ((((((dest.data ++ ['/']) ++ replaceFirstChar '/' '-' name.data) ++ ['-']) ++
        version.data) ++ []) ++ ".tgz".data) =
      dest.data ++ '/' :: ((replaceFirstChar '/' '-' name.data ++ ('-' :: version.data)) ++
        ".tgz".data)
    simp [List.append_assoc]
  · show ((((((dest.data ++ ['/']) ++ replaceFirstChar '/' '-' name.data) ++ ['-']) ++
        version.data) ++ "-latest".data) ++ ".tgz".data) =
      dest.data ++ '/' :: ((replaceFirstChar '/' '-' name.data ++ ('-' :: version.data)) ++
        "-latest.tgz".data)
    simp [List.append_assoc]

theorem basename_tarball (dest name version : String) (isLatest : Bool)
    (hn : '/' ∉ replaceFirstChar '/' '-' name.data)
    (hv : '/' ∉ version.data) :
    (basenameStr (downloadPackageTarballPath dest name version isLatest)).data =
      (replaceFirstChar '/' '-' name.data ++ ('-' :: version.data)) ++
        (if isLatest then "-latest.tgz" else ".tgz").data := by
  have hF : '/' ∉ ((replaceFirstChar '/' '-' name.data ++ ('-' :: version.data)) ++
      (if isLatest then "-latest.tgz" else ".tgz").data) := by
    intro hm
    rcases List.mem_append.1 hm with hm | hm
    · rcases List.mem_append.1 hm with hm | hm
      · exact hn hm
      · rcases List.mem_cons.1 hm with hm | hm
        · exact absurd hm (by decide)
        · exact hv hm
    · cases isLatest
      · exact absurd hm (by decide)
      · exact absurd hm (by decide)
  show afterLastChar '/' (downloadPackageTarballPath dest name version isLatest).data = _
  rw [path_data]
  exact afterLastChar_append '/' _ hF dest.data

theorem tarball_endsWith (nameE version : List Char) (isLatest : Bool) :
    listEndsWith ".tgz".data ((nameE ++ ('-' :: version)) ++
      (if isLatest then "-latest.tgz" else ".tgz").data) = true := by
  cases isLatest
  · exact listEndsWith_append_self ".tgz".data (nameE ++ ('-' :: version))
  · have h2 : (nameE ++ ('-' :: version)) ++ "-latest.tgz".data =
        ((nameE ++ ('-' :: version)) ++ "-latest".data) ++ ".tgz".data :=
      (List.append_assoc (nameE ++ ('-' :: version)) "-latest".data ".tgz".data).symm
    show listEndsWith ".tgz".data ((nameE ++ ('-' :: version)) ++ "-latest.tgz".data) = true
    rw [h2]
    exact listEndsWith_append_self ".tgz".data ((nameE ++ ('-' :: version)) ++ "-latest".data)

theorem tarball_marker (nameE version : List Char) (isLatest : Bool)
    (hnm : ¬ ("-latest.tgz".data <:+: nameE))
    (hvh : ∀ c, version.head? = some c → c.isDigit = true)
    (hvd : '-' ∉ version) (hvne : version ≠ []) :
    listContains "-latest.tgz".data ((nameE ++ ('-' :: version)) ++
        (if isLatest then "-latest.tgz" else ".tgz").data) = isLatest ∧
    listReplaceFirst "-latest.tgz".data ".tgz".data ((nameE ++ ('-' :: version)) ++
        (if isLatest then "-latest.tgz" else ".tgz").data) =
      nameE ++ ('-' :: version ++ ".tgz".data) := by
  have hfull : ¬ ("-latest.tgz".data <:+: (nameE ++ ('-' :: version ++ ".tgz".data))) :=
    noLatest_infix_full nameE version hnm hvh hvd hvne
  have hA : ¬ ("-latest.tgz".data <:+: (nameE ++ ('-' :: version))) := by
    intro h
    apply hfull
    refine h.trans ⟨[], ".tgz".data, ?_⟩
    simp [List.append_assoc]
  cases isLatest
  · have hni : ¬ ("-latest.tgz".data <:+: ((nameE ++ ('-' :: version)) ++ ".tgz".data)) := by
      intro h
      rw [List.append_assoc] at h
      exact hfull h
    exact ⟨listContains_false _ _ hni,
      (listReplaceFirst_no_occurrence _ _ _ hni).trans (List.append_assoc _ _ _)⟩
  · exact ⟨listContains_append_self _ _,
      (listReplaceFirst_append_end "-latest.tgz".data ".tgz".data (by decide)
        (nameE ++ ('-' :: version)) (marker_no_overlap _ hA)).trans (List.append_assoc _ _ _)⟩

/-- C9 counterexample: the encoding is NOT bidirectional as claimed.  For the
resolved package `x1@2.0.0`, `downloadPackageTarball` writes `x1-2.0.0.tgz`,
but `publishTarball` derives the version `1-2.0.0` from it (the version regex
`match("(\x5cd.*).tgz")` captures from the first digit of the filename, which
lies inside the package name), not the original `2.0.0`. -/
theorem spec_C9_counterexample :
    parseTarballName (basenameStr (downloadPackageTarballPath "d" "x1" "2.0.0" false)) =
      some ("x1", "1-2.0.0", false) ∧
    some (("x1" : String), ("1-2.0.0" : String), false) ≠
      some (("x1" : String), ("2.0.0" : String), false) :=
  ⟨by decide, by decide⟩

/-- C9 (amended): the tarball filename encoding round-trips for names that
contain no digit, do not contain the `-latest.tgz` marker, and are either
unscoped (no `/`, not starting with `@`) or scoped with a dash-free scope
segment, and for non-empty versions made of digits and dots starting with a
digit: `publishTarball` derives back exactly `(name, version, isLatest)` from
the filename `downloadPackageTarball` writes, and builds the publish command
with `--tag name@version` exactly when `isLatest` is false. -/
theorem spec_C9 (dest name version : String) (isLatest : Bool)
    (hn_ne : name.data ≠ [])
    (hnd : ∀ c ∈ name.data, c.isDigit = false)
    (hnm : ¬ ("-latest.tgz".data <:+: replaceFirstChar '/' '-' name.data))
    (hv_ne : version.data ≠ [])
    (hvh : ∀ c ∈ version.data.head?, c.isDigit = true)
    (hvc : ∀ c ∈ version.data, c.isDigit = true ∨ c = '.')
    (hcase : ('/' ∉ name.data ∧ name.data.head? ≠ some '@') ∨
      (∃ A B, name.data = A ++ '/' :: B ∧ A.head? = some '@' ∧
        '/' ∉ A ∧ '/' ∉ B ∧ '-' ∉ A)) :
    parseTarballName (basenameStr (downloadPackageTarballPath dest name version isLatest)) =
      some (name, version, isLatest) ∧
    publishTarballPlan (downloadPackageTarballPath dest name version isLatest) false =
      .ok ("npm publish \"" ++ downloadPackageTarballPath dest name version isLatest ++
        "\"" ++ (if isLatest then "" else " --tag " ++ name ++ "@" ++ version)) := by
  have hvh' : ∀ c, version.data.head? = some c → c.isDigit = true :=
    fun c hc => hvh c (Option.mem_def.2 hc)
  have hvd : '-' ∉ version.data := by
    intro hm
    rcases hvc '-' hm with h | h
    · exact absurd h (by decide)
    · exact absurd h (by decide)
  have hvs : '/' ∉ version.data := by
    intro hm
    rcases hvc '/' hm with h | h
    · exact absurd h (by decide)
    · exact absurd h (by decide)
  have hkey : '/' ∉ replaceFirstChar '/' '-' name.data ∧
      (if (replaceFirstChar '/' '-' name.data ++
          ('-' :: version.data ++ ".tgz".data)).head? = some '@' then
        replaceFirstChar '-' '/'
          (replaceFirstChar '/' '-' name.data ++ ('-' :: version.data ++ ".tgz".data))
      else replaceFirstChar '/' '-' name.data ++ ('-' :: version.data ++ ".tgz".data)) =
      name.data ++ ('-' :: version.data ++ ".tgz".data) := by
    rcases hcase with ⟨hns, hnat⟩ | ⟨A, B, hnAB, hAhead, hsA, hsB, hdA⟩
    · have hE : replaceFirstChar '/' '-' name.data = name.data :=
        replaceFirstChar_not_mem '/' '-' name.data hns
      obtain ⟨n0, nt, hn0⟩ : ∃ a t, name.data = a :: t := by
        cases h : name.data with
        | nil => exact absurd h hn_ne
        | cons a t => exact ⟨a, t, rfl⟩
      refine ⟨by rw [hE]; exact hns, ?_⟩
      have hh : ((n0 :: nt) ++ ('-' :: version.data ++ ".tgz".data)).head? ≠ some '@' := by
        show some n0 ≠ some '@'
        rw [hn0] at hnat
        exact hnat
      rw [hE, hn0, if_neg hh]
    · obtain ⟨A', rfl⟩ : ∃ A', A = '@' :: A' := by
        cases A with
        | nil => cases hAhead
        | cons a A2 =>
          refine ⟨A2, ?_⟩
          injection hAhead with h
          rw [h]
      have hE : replaceFirstChar '/' '-' name.data = ('@' :: A') ++ '-' :: B := by
        rw [hnAB]
        exact replaceFirstChar_append '/' '-' B ('@' :: A') hsA
      constructor
      · rw [hE]
        intro hm
        rcases List.mem_append.1 hm with hm | hm
        · exact hsA hm
        · rcases List.mem_cons.1 hm with hm | hm
          · exact absurd hm (by decide)
          · exact hsB hm
      · have hcond : ((('@' :: A') ++ ('-' :: B)) ++
            ('-' :: version.data ++ ".tgz".data)).head? = some '@' := rfl
        rw [hE, if_pos hcond]
        have hsplit : (('@' :: A') ++ ('-' :: B)) ++ ('-' :: version.data ++ ".tgz".data) =
            ('@' :: A') ++ '-' :: (B ++ ('-' :: version.data ++ ".tgz".data)) :=
          List.append_assoc ('@' :: A') ('-' :: B) _
        rw [hsplit, replaceFirstChar_append '-' '/' _ ('@' :: A') hdA, hnAB]
        exact (List.append_assoc ('@' :: A') ('/' :: B) _).symm
  obtain ⟨hslashE, hclear⟩ := hkey
  have hbase := basename_tarball dest name version isLatest hslashE hvs
  obtain ⟨hcont, hstrip⟩ := tarball_marker (replaceFirstChar '/' '-' name.data)
    version.data isLatest hnm hvh' hvd hv_ne
  have hEnds : listEndsWith ".tgz".data
      (basenameStr (downloadPackageTarballPath dest name version isLatest)).data = true := by
    rw [hbase]
    exact tarball_endsWith _ _ _
  have hnodash : '-' ∉ version.data ++ ".tgz".data := by
    intro hm
    rcases List.mem_append.1 hm with hm | hm
    · exact hvd hm
    · exact absurd hm (by decide)
  have hmn : matchNameGroup (name.data ++ ('-' :: version.data ++ ".tgz".data)) =
      some name.data := beforeLastChar_append '-' _ hnodash name.data
  have hnodig : ∀ c ∈ name.data ++ ['-'], c.isDigit = false := by
    intro c hc
    rcases List.mem_append.1 hc with hc | hc
    · exact hnd c hc
    · rw [List.mem_singleton.1 hc]
      rfl
  have hC : name.data ++ ('-' :: version.data ++ ".tgz".data) =
      (name.data ++ ['-']) ++ (version.data ++ ".tgz".data) := by
    simp
  have hmv : matchVersionGroup (name.data ++ ('-' :: version.data ++ ".tgz".data)) =
      some version.data := by
    rw [hC,
      matchVersionGroup_skip (version.data ++ ".tgz".data) (name.data ++ ['-']) hnodig,
      matchVersionGroup_main version.data hv_ne hvh']
  have hname' : (⟨name.data⟩ : String) ≠ "" := fun h => hn_ne (congrArg String.data h)
  have hver' : (⟨version.data⟩ : String) ≠ "" := fun h => hv_ne (congrArg String.data h)
  constructor
  · simp only [parseTarballName]
    rw [hbase, hstrip, hclear, hmn, hmv]
    split
    · rename_i nc vc heq1 heq2
      injection heq1 with h1
      injection heq2 with h2
      subst h1
      subst h2
      rw [hcont]
    · rename_i hno
      exact (hno name.data version.data rfl rfl).elim
  · simp only [publishTarballPlan]
    rw [hEnds, if_neg (not_not_intro rfl), hbase, hstrip, hclear, hmn, hmv]
    split
    · rename_i nc vc heq1 heq2
      injection heq1 with h1
      injection heq2 with h2
      subst h1
      subst h2
      rw [hcont]
      cases isLatest
      · rw [if_pos ⟨hname', hver', Bool.false_ne_true⟩, if_neg Bool.false_ne_true,
          if_neg Bool.false_ne_true, String.append_empty]
      · rw [if_neg (fun hc => hc.2.2 rfl), if_pos rfl, if_neg Bool.false_ne_true,
          String.append_empty, String.append_empty]
    · rename_i hno
      exact (hno name.data version.data rfl rfl).elim

/-- C9 witness: the amended round trip at the concrete unscoped package
`pkg@1.2.3` (not latest: the publish command carries `--tag pkg@1.2.3`) and
the concrete scoped package `@s/p@2.0.0` marked latest (no `--tag`). -/
theorem spec_C9_witness :
    parseTarballName (basenameStr (downloadPackageTarballPath "dest" "pkg" "1.2.3" false)) =
      some ("pkg", "1.2.3", false) ∧
    publishTarballPlan (downloadPackageTarballPath "dest" "@s/p" "2.0.0" true) false =
      .ok ("npm publish \"" ++ downloadPackageTarballPath "dest" "@s/p" "2.0.0" true ++
        "\"" ++ (if (true : Bool) then "" else " --tag " ++ "@s/p" ++ "@" ++ "2.0.0")) :=
  ⟨(spec_C9 "dest" "pkg" "1.2.3" false (by decide) (by decide) (by decide) (by decide)
      (by decide) (by decide) (Or.inl ⟨by decide, by decide⟩)).1,
   (spec_C9 "dest" "@s/p" "2.0.0" true (by decide) (by decide) (by decide) (by decide)
      (by decide) (by decide)
      (Or.inr ⟨['@', 's'], ['p'], rfl, rfl, by decide, by decide, by decide⟩)).2⟩

end NpmOfflinePackager
